import Mathlib

/-!
# Chained hash table (`hash_table.c`)

A shallow embedding of the fixed-bucket-count, separately chained hash table of
`hash_table.c`, followed by the properties proved about it.

Modelling choices.

* Keys are `unsigned int`; no arithmetic is ever done on them (only `==` and the
  caller's hash), so they are natural numbers.
* Values are `void*`: an address, a natural number, `0` being `NULL`.
* A chain (`HashTableEntry*` with its `next` links) is the list of its entries
  from the head to the tail; the `next` field of an entry is the rest of the list
  and `NULL` is the empty list.
* `buckets` is the heap array of chain heads; reading or writing `buckets[i]`
  with `i` outside the array is undefined behaviour in C and is the result
  `none` in the embedding.
* A pointer to an entry (the result of `findItem`) is the bucket index together
  with the position of the entry in that chain.
* The calls `free(value)` are recorded, in order, in the `freed` log of the
  `World`; `free(node)` is the disappearance of the node from its chain.
* `malloc` is assumed to succeed.
-/

namespace HashTableC

/-- A `void*` value: an address, with `0` for `NULL`. -/
abbrev Val := Nat

/-- The null pointer. -/
abbrev NULL : Val := 0

/-- The struct `_HashTableEntry`: `key` and `value`; the `next` link is the tail of
the list the entry stands in. -/
structure HashTableEntry where
  key : Nat
  value : Val
deriving DecidableEq

/-- The struct `_HashTable`: the array of chain heads, the hash function pointer and
the bucket count. -/
structure HashTable where
  buckets : List (List HashTableEntry)
  hash : Nat → Nat
  num_buckets : Nat

/-- The program state the functions act on: the table and the log of the values
handed to `free`, oldest first. -/
structure World where
  table : HashTable
  freed : List Val

/-- A `HashTableEntry*` into a table: bucket index and position in the chain. -/
structure EntryPtr where
  bucket : Nat
  pos : Nat
deriving DecidableEq

/-- The entry made by `createHashTableEntry(key, value)`; its `next` is `NULL`,
that is, it is followed by nothing until the caller links it. -/
def createHashTableEntry (key : Nat) (value : Val) : HashTableEntry :=
  { key := key, value := value }

/-- The `while (thisNode)` loop of `findItem`, run on the chain that starts at
`thisNode`: the number of `next` steps to the first entry whose key is `key`, or
`none` when the walk reaches `NULL`. -/
def findLoop (key : Nat) : List HashTableEntry → Option Nat
  | [] => none
  | thisNode :: next =>
    if thisNode.key = key then some 0
    else (findLoop key next).map (· + 1)

/-- The function `findItem`: outer `none` is an out-of-bounds read of `buckets[index]`,
inner `none` is the `NULL` result. -/
def findItem (hashTable : HashTable) (key : Nat) : Option (Option EntryPtr) :=
  let index := hashTable.hash key
  match hashTable.buckets[index]? with
  | none => none
  | some chain => some ((findLoop key chain).map (fun p => { bucket := index, pos := p }))

/-- Reading through an entry pointer (`currentNode->...`). -/
def deref (hashTable : HashTable) (p : EntryPtr) : Option HashTableEntry :=
  match hashTable.buckets[p.bucket]? with
  | none => none
  | some chain => chain[p.pos]?

/-- The write `currentNode->value = value` through an entry pointer. -/
def storeValue (hashTable : HashTable) (p : EntryPtr) (value : Val) : Option HashTable :=
  match hashTable.buckets[p.bucket]? with
  | none => none
  | some chain =>
    match chain[p.pos]? with
    | none => none
    | some e =>
      some { hashTable with
        buckets := hashTable.buckets.set p.bucket (chain.set p.pos { e with value := value }) }

/-- The function `createHashTable`: `none` is the `exit(1)` taken when `numBuckets == 0`;
otherwise every bucket is initialised to `NULL`. -/
def createHashTable (hashFunction : Nat → Nat) (numBuckets : Nat) : Option HashTable :=
  if numBuckets = 0 then none
  else some { buckets := List.replicate numBuckets [], hash := hashFunction,
              num_buckets := numBuckets }

/-- The inner loop of `destroyHashTable` on a non-empty chain, `thisNode` followed by
the chain at `nextNode`: the values handed to `free`, in order. -/
def destroyLoop (thisNode : HashTableEntry) : List HashTableEntry → List Val
  | [] => [thisNode.value]
  | nextNode :: rest => thisNode.value :: destroyLoop nextNode rest

/-- The `for` loop of `destroyHashTable` over the bucket indices still to visit,
threading the log of freed values. -/
def destroyBuckets (hashTable : HashTable) : List Nat → List Val → Option (List Val)
  | [], freed => some freed
  | i :: is, freed =>
    match hashTable.buckets[i]? with
    | none => none
    | some [] => destroyBuckets hashTable is freed
    | some (thisNode :: nextNode) =>
      destroyBuckets hashTable is (freed ++ destroyLoop thisNode nextNode)

/-- The function `destroyHashTable`: the table is gone afterwards, what remains is the
log of freed values. -/
def destroyHashTable (w : World) : Option (List Val) :=
  destroyBuckets w.table (List.range w.table.num_buckets) w.freed

/-- The function `insertItem`; the result is the returned pointer and the new state. -/
def insertItem (w : World) (key : Nat) (value : Val) : Option (Val × World) :=
  let bucketIndex := w.table.hash key
  match findItem w.table key with
  | none => none
  | some (some currentNode) =>
    match deref w.table currentNode, storeValue w.table currentNode value with
    | some e, some t => some (e.value, { w with table := t })
    | _, _ => none
  | some none =>
    match w.table.buckets[bucketIndex]? with
    | none => none
    | some head =>
      some (NULL, { w with table := { w.table with
        buckets := w.table.buckets.set bucketIndex (createHashTableEntry key value :: head) } })

/-- The function `getItem`; the state is returned as well, to say what the call does
to it. -/
def getItem (w : World) (key : Nat) : Option (Val × World) :=
  match findItem w.table key with
  | none => none
  | some (some currentNode) =>
    match deref w.table currentNode with
    | some e => some (e.value, w)
    | none => none
  | some none => some (NULL, w)

/-- The `while (thisNode && thisNode->next)` loop of `removeItem` on the chain that
starts at `thisNode`: `none` when the loop ends without a match, otherwise the value
of the unlinked entry and the chain from `thisNode` after the splice. -/
def removeLoop (key : Nat) : List HashTableEntry → Option (Val × List HashTableEntry)
  | [] => none
  | thisNode :: next =>
    match next with
    | [] => none
    | tmp :: rest =>
      if tmp.key = key then some (tmp.value, thisNode :: rest)
      else
        match removeLoop key next with
        | none => none
        | some (v, next2) => some (v, thisNode :: next2)

/-- The function `removeItem`. -/
def removeItem (w : World) (key : Nat) : Option (Val × World) :=
  let bucketIndex := w.table.hash key
  match w.table.buckets[bucketIndex]? with
  | none => none
  | some [] => some (NULL, w)
  | some (thisNode :: next) =>
    if thisNode.key = key then
      some (thisNode.value, { w with table := { w.table with
        buckets := w.table.buckets.set bucketIndex next } })
    else
      match removeLoop key (thisNode :: next) with
      | none => some (NULL, w)
      | some (removedEntryValue, chain) =>
        some (removedEntryValue, { w with table := { w.table with
          buckets := w.table.buckets.set bucketIndex chain } })

/-- The `while (thisNode && thisNode->next)` loop of `deleteItem` on the chain that
starts at `thisNode`: `none` when the loop ends without a match, otherwise the value
handed to `free` and the chain from `thisNode` after the splice. -/
def deleteLoop (key : Nat) : List HashTableEntry → Option (Val × List HashTableEntry)
  | [] => none
  | thisNode :: next =>
    match next with
    | [] => none
    | tmp :: rest =>
      if tmp.key = key then some (tmp.value, thisNode :: rest)
      else
        match deleteLoop key next with
        | none => none
        | some (v, next2) => some (v, thisNode :: next2)

/-- The function `deleteItem`. -/
def deleteItem (w : World) (key : Nat) : Option World :=
  let bucketIndex := w.table.hash key
  match w.table.buckets[bucketIndex]? with
  | none => none
  | some chain =>
    match findItem w.table key with
    | none => none
    | some none => some w
    | some (some _) =>
      match chain with
      | [] => some w
      | thisNode :: next =>
        if thisNode.key = key then
          some { table := { w.table with buckets := w.table.buckets.set bucketIndex next },
                 freed := w.freed ++ [thisNode.value] }
        else
          match deleteLoop key (thisNode :: next) with
          | none => some w
          | some (freedValue, chain2) =>
            some { table := { w.table with buckets := w.table.buckets.set bucketIndex chain2 },
                   freed := w.freed ++ [freedValue] }

/-! ## Call sequences -/

/-- One call of a mutating interface function. -/
inductive Op where
  | insertItem (key : Nat) (value : Val)
  | removeItem (key : Nat)
  | deleteItem (key : Nat)
deriving DecidableEq

/-- The key a call is about. -/
def Op.key : Op → Nat
  | .insertItem k _ => k
  | .removeItem k => k
  | .deleteItem k => k

/-- Whether a call is an `insertItem` on the key `k`. -/
def Op.insertsKey (k : Nat) : Op → Prop
  | .insertItem k2 _ => k2 = k
  | .removeItem _ => False
  | .deleteItem _ => False

/-- The state after one call (the returned value is dropped). -/
def applyOp (w : World) : Op → Option World
  | .insertItem k v => (insertItem w k v).map Prod.snd
  | .removeItem k => (removeItem w k).map Prod.snd
  | .deleteItem k => deleteItem w k

/-- The state after a sequence of calls, made from left to right. -/
def run (w : World) : List Op → Option World
  | [] => some w
  | op :: ops =>
    match applyOp w op with
    | none => none
    | some w2 => run w2 ops

/-- The state right after `createHashTable(hash, n)`: nothing has been freed yet. -/
def fresh (hashFunction : Nat → Nat) (numBuckets : Nat) : Option World :=
  (createHashTable hashFunction numBuckets).map (fun t => { table := t, freed := [] })

/-- The hash function of `ht_tests.cpp`, with its `BUCKET_NUM` of 3. -/
def testHash (key : Nat) : Nat := key % 3

/-- The table of `ht_tests.cpp` after `insertItem` of the keys 3, 7 and 19 (values at
the addresses 10, 20 and 30): 7 and 19 share bucket 1, the later one in front. -/
def sampleWorld : World :=
  { table := { buckets := [[⟨3, 10⟩], [⟨19, 30⟩, ⟨7, 20⟩], []], hash := testHash,
               num_buckets := 3 },
    freed := [] }

/-! ## List functions the chains are compared with -/

/-- The value of the first entry of a chain whose key is `key`, if there is one. -/
def lookupChain (key : Nat) : List HashTableEntry → Option Val
  | [] => none
  | e :: rest => if e.key = key then some e.value else lookupChain key rest

/-- The chain with the value of its first entry of key `key` replaced by `value`. -/
def replaceChain (key : Nat) (value : Val) : List HashTableEntry → List HashTableEntry
  | [] => []
  | e :: rest =>
    if e.key = key then { e with value := value } :: rest
    else e :: replaceChain key value rest

/-- The chain without its first entry of key `key`. -/
def eraseChain (key : Nat) : List HashTableEntry → List HashTableEntry
  | [] => []
  | e :: rest => if e.key = key then rest else e :: eraseChain key rest

/-- Overwrite the first entry of key `key`, or put a new entry in front when the chain
has none. -/
def putChain (key : Nat) (value : Val) (chain : List HashTableEntry) : List HashTableEntry :=
  if (lookupChain key chain).isSome then replaceChain key value chain
  else { key := key, value := value } :: chain

/-- The keys of a chain, head first. -/
def chainKeys (chain : List HashTableEntry) : List Nat := chain.map (fun e => e.key)

/-- The state with the chain of bucket `i` replaced. -/
def setBucket (w : World) (i : Nat) (chain : List HashTableEntry) : World :=
  { w with table := { w.table with buckets := w.table.buckets.set i chain } }

/-- What a call does to the chain of the bucket of its key. -/
def Op.onChain : Op → List HashTableEntry → List HashTableEntry
  | .insertItem k v, chain => putChain k v chain
  | .removeItem k, chain => eraseChain k chain
  | .deleteItem k, chain => eraseChain k chain

/-! ## Predicates of the statements -/

/-- The table is the one a `createHashTable` call lays out for a hash function with
range `[0, num_buckets)`: the array has `num_buckets >= 1` slots and every key hashes
to one of them. -/
def InRange (t : HashTable) : Prop :=
  t.buckets.length = t.num_buckets ∧ 1 ≤ t.num_buckets ∧ ∀ k, t.hash k < t.num_buckets

/-- No entry of any bucket has the key `k`. -/
def NoEntry (t : HashTable) (k : Nat) : Prop :=
  ∀ chain ∈ t.buckets, ∀ e ∈ chain, e.key ≠ k

/-- The key `k` has an entry holding `v`: in the chain of bucket `hash k`, the first
entry with key `k` (the one every search reaches) has value `v`. -/
def HasEntry (t : HashTable) (k : Nat) (v : Val) : Prop :=
  ∃ before after, t.buckets[t.hash k]? = some (before ++ { key := k, value := v } :: after)
    ∧ ∀ e ∈ before, e.key ≠ k

/-- The entry at position `j` of the chain of bucket `i`, if there is one. -/
def entryAt (t : HashTable) (i j : Nat) : Option HashTableEntry :=
  match t.buckets[i]? with
  | none => none
  | some chain => chain[j]?

/-- The state `w` is reached from `createHashTable(hash, n)`, with `n >= 1` and
`hash` into `[0, n)`, by the calls `ops`. -/
def ReachedBy (hashFunction : Nat → Nat) (n : Nat) (ops : List Op) (w : World) : Prop :=
  1 ≤ n ∧ (∀ k, hashFunction k < n) ∧ (fresh hashFunction n).bind (fun w0 => run w0 ops) = some w

/-- The state `w` is reached from some `createHashTable` call by some calls. -/
def Reached (w : World) : Prop :=
  ∃ hashFunction n ops, ReachedBy hashFunction n ops w

/-- The invariant of reached tables: the layout of `InRange`, every entry sits in the
bucket of its key, and no chain repeats a key. -/
def Inv (t : HashTable) : Prop :=
  InRange t ∧ ∀ i chain, t.buckets[i]? = some chain →
    (∀ k ∈ chainKeys chain, t.hash k = i) ∧ (chainKeys chain).Nodup

/-- What a search for `k` finds in the table: the value of the first entry with key
`k` in the chain of bucket `hash k`. -/
def lookupTable (t : HashTable) (k : Nat) : Option Val :=
  match t.buckets[t.hash k]? with
  | none => none
  | some chain => lookupChain k chain

/-- The values of all entries of the given buckets: bucket by bucket, and head to tail
within a bucket. -/
def allValues : List (List HashTableEntry) → List Val
  | [] => []
  | chain :: rest => chain.map (fun e => e.value) ++ allValues rest

/-! ## Calls with their results, and the finite map they are compared with -/

/-- One call of an interface function, `getItem` included. -/
inductive Call where
  | insertItem (key : Nat) (value : Val)
  | getItem (key : Nat)
  | removeItem (key : Nat)
  | deleteItem (key : Nat)
deriving DecidableEq

/-- What a call hands back: the returned `void*`, or nothing for the `void` function
`deleteItem`. -/
abbrev Ret := Option Val

/-- One call on the table: what it returns and the state after it. -/
def callStep (w : World) : Call → Option (Ret × World)
  | .insertItem k v => (insertItem w k v).map (fun p => (some p.1, p.2))
  | .getItem k => (getItem w k).map (fun p => (some p.1, p.2))
  | .removeItem k => (removeItem w k).map (fun p => (some p.1, p.2))
  | .deleteItem k => (deleteItem w k).map (fun w2 => (none, w2))

/-- A sequence of calls on the table, from left to right: the results in order and the
final state. -/
def runCalls (w : World) : List Call → Option (List Ret × World)
  | [] => some ([], w)
  | c :: cs =>
    match callStep w c with
    | none => none
    | some (r, w2) =>
      match runCalls w2 cs with
      | none => none
      | some (rs, w3) => some (r :: rs, w3)

/-- The abstract key-to-value map the table is compared with, written from the words of
the refinement statement: a key is bound to a value or unbound. It knows no buckets
and no hash function. -/
abbrev AbsMap := Nat → Option Val

/-- The map without bindings. -/
def absEmpty : AbsMap := fun _ => none

/-- The map with `k` bound to `v`. -/
def absBind (m : AbsMap) (k : Nat) (v : Val) : AbsMap := fun x => if x = k then some v else m x

/-- The map with `k` unbound. -/
def absUnbind (m : AbsMap) (k : Nat) : AbsMap := fun x => if x = k then none else m x

/-- One call on the abstract map, written from the words of the refinement statement:
insert returns the previous binding or absent and binds `k` to `v`; get returns the
binding or absent; remove returns the binding or absent and unbinds `k`; delete
unbinds `k`. Absent is `NULL`. -/
def absStep (m : AbsMap) : Call → Ret × AbsMap
  | .insertItem k v => (some ((m k).getD NULL), absBind m k v)
  | .getItem k => (some ((m k).getD NULL), m)
  | .removeItem k => (some ((m k).getD NULL), absUnbind m k)
  | .deleteItem k => (none, absUnbind m k)

/-- A sequence of calls on the abstract map: the results in order and the final map. -/
def absRun (m : AbsMap) : List Call → List Ret × AbsMap
  | [] => ([], m)
  | c :: cs => ((absStep m c).1 :: (absRun (absStep m c).2 cs).1, (absRun (absStep m c).2 cs).2)

/-- The table stands for the map `m`: it satisfies the invariant of reached tables and
a search for any key finds what `m` binds it to. -/
def Sim (w : World) (m : AbsMap) : Prop :=
  Inv w.table ∧ ∀ k, lookupTable w.table k = m k

/-- The call `insertItem(key, value)` for a key-value pair. -/
def insertOp (p : Nat × Val) : Op := Op.insertItem p.1 p.2

/-- The entry for a key-value pair. -/
def entryOf (p : Nat × Val) : HashTableEntry := { key := p.1, value := p.2 }

/-- The entries a bucket `i` gets from inserting the pairs `items` in order, each key
once: those whose key hashes to `i`, the latest first. -/
def expectedChain (hashFunction : Nat → Nat) (i : Nat) (items : List (Nat × Val)) :
    List HashTableEntry :=
  ((items.filter (fun p => decide (hashFunction p.1 = i))).reverse).map entryOf

/-! ## Chains: the loops and the list functions -/

theorem lookupChain_eq_none {key : Nat} {chain : List HashTableEntry} :
    lookupChain key chain = none ↔ ∀ e ∈ chain, e.key ≠ key := by
  induction chain with
  | nil => simp [lookupChain]
  | cons e rest ih =>
    by_cases h : e.key = key
    · simp [lookupChain, h]
    · simp [lookupChain, h, ih]

theorem lookupChain_append {key v : Nat} {before after : List HashTableEntry}
    (h : ∀ e ∈ before, e.key ≠ key) :
    lookupChain key (before ++ { key := key, value := v } :: after) = some v := by
  induction before with
  | nil => simp [lookupChain]
  | cons e rest ih =>
    have he : e.key ≠ key := h e (List.mem_cons_self _ _)
    have hr : ∀ x ∈ rest, x.key ≠ key := fun x hx => h x (List.mem_cons_of_mem _ hx)
    simp [lookupChain, he, ih hr]

theorem findLoop_eq_none {key : Nat} {chain : List HashTableEntry} :
    findLoop key chain = none ↔ lookupChain key chain = none := by
  induction chain with
  | nil => simp [findLoop, lookupChain]
  | cons e rest ih =>
    by_cases h : e.key = key
    · simp [findLoop, lookupChain, h]
    · simp [findLoop, lookupChain, h, ih]

theorem findLoop_eq_some {key : Nat} {chain : List HashTableEntry} {p : Nat}
    (h : findLoop key chain = some p) :
    ∃ e, chain[p]? = some e ∧ e.key = key ∧ lookupChain key chain = some e.value
      ∧ (∀ j e2, j < p → chain[j]? = some e2 → e2.key ≠ key)
      ∧ ∀ v, chain.set p { e with value := v } = replaceChain key v chain := by
  induction chain generalizing p with
  | nil => simp [findLoop] at h
  | cons e rest ih =>
    by_cases hk : e.key = key
    · simp only [findLoop, hk, if_true, Option.some.injEq] at h
      subst h
      refine ⟨e, by simp, hk, by simp [lookupChain, hk], ?_, ?_⟩
      · intro j e2 hj
        omega
      · intro v
        simp [replaceChain, hk]
    · simp only [findLoop, hk, if_false, Option.map_eq_some'] at h
      obtain ⟨q, hq, rfl⟩ := h
      obtain ⟨e1, h1, h2, h3, h4, h5⟩ := ih hq
      refine ⟨e1, by simpa using h1, h2, by simp [lookupChain, hk, h3], ?_, ?_⟩
      · intro j e2 hj hget
        cases j with
        | zero =>
          simp at hget
          subst hget
          exact hk
        | succ j =>
          simp at hget
          exact h4 j e2 (by omega) hget
      · intro v
        simp [replaceChain, hk, h5 v]

theorem removeLoop_eq (key : Nat) (thisNode : HashTableEntry) (next : List HashTableEntry) :
    removeLoop key (thisNode :: next)
      = (lookupChain key next).map (fun v => (v, thisNode :: eraseChain key next)) := by
  induction next generalizing thisNode with
  | nil => simp [removeLoop, lookupChain]
  | cons tmp rest ih =>
    by_cases hk : tmp.key = key
    · simp [removeLoop, lookupChain, eraseChain, hk]
    · rw [removeLoop]
      simp only [hk, if_false, lookupChain, eraseChain]
      rw [ih tmp]
      cases lookupChain key rest <;> simp

theorem deleteLoop_eq_removeLoop (key : Nat) (chain : List HashTableEntry) :
    deleteLoop key chain = removeLoop key chain := by
  induction chain with
  | nil => simp [deleteLoop, removeLoop]
  | cons thisNode next ih =>
    cases next with
    | nil => simp [deleteLoop, removeLoop]
    | cons tmp rest =>
      rw [deleteLoop, removeLoop]
      by_cases hk : tmp.key = key
      · simp [hk]
      · simp only [hk, if_false]
        rw [ih]

theorem eraseChain_of_lookupChain_none {key : Nat} {chain : List HashTableEntry}
    (h : lookupChain key chain = none) : eraseChain key chain = chain := by
  induction chain with
  | nil => rfl
  | cons e rest ih =>
    by_cases hk : e.key = key
    · simp [lookupChain, hk] at h
    · simp only [lookupChain, hk, if_false] at h
      simp [eraseChain, hk, ih h]

theorem mem_eraseChain {key : Nat} {chain : List HashTableEntry} {e : HashTableEntry}
    (h : e ∈ eraseChain key chain) : e ∈ chain := by
  induction chain with
  | nil => simp [eraseChain] at h
  | cons x rest ih =>
    by_cases hk : x.key = key
    · simp only [eraseChain, hk, if_true] at h
      exact List.mem_cons_of_mem _ h
    · simp only [eraseChain, hk, if_false, List.mem_cons] at h
      rcases h with h | h
      · exact h ▸ List.mem_cons_self _ _
      · exact List.mem_cons_of_mem _ (ih h)

theorem chainKeys_eraseChain_sublist (key : Nat) (chain : List HashTableEntry) :
    (chainKeys (eraseChain key chain)).Sublist (chainKeys chain) := by
  induction chain with
  | nil => simp [eraseChain, chainKeys]
  | cons x rest ih =>
    by_cases hk : x.key = key
    · simp [eraseChain, chainKeys, hk]
    · simpa [eraseChain, chainKeys, hk] using ih

theorem lookupChain_eraseChain_ne {key k2 : Nat} (h : k2 ≠ key) (chain : List HashTableEntry) :
    lookupChain k2 (eraseChain key chain) = lookupChain k2 chain := by
  induction chain with
  | nil => rfl
  | cons x rest ih =>
    by_cases hk : x.key = key
    · subst hk
      simp [eraseChain, lookupChain, Ne.symm h]
    · by_cases hk2 : x.key = k2
      · subst hk2
        simp [eraseChain, lookupChain, hk]
      · simp [eraseChain, lookupChain, hk, hk2, ih]

theorem lookupChain_eraseChain_self {key : Nat} {chain : List HashTableEntry}
    (h : (chainKeys chain).Nodup) : lookupChain key (eraseChain key chain) = none := by
  induction chain with
  | nil => rfl
  | cons x rest ih =>
    simp only [chainKeys, List.map_cons, List.nodup_cons] at h
    by_cases hk : x.key = key
    · simp only [eraseChain, hk, if_true]
      rw [lookupChain_eq_none]
      intro e he hek
      apply h.1
      rw [hk, ← hek]
      exact List.mem_map_of_mem _ he
    · simp only [eraseChain, hk, if_false, lookupChain]
      exact ih h.2

theorem chainKeys_replaceChain (key : Nat) (v : Val) (chain : List HashTableEntry) :
    chainKeys (replaceChain key v chain) = chainKeys chain := by
  induction chain with
  | nil => rfl
  | cons x rest ih =>
    by_cases hk : x.key = key
    · simp [replaceChain, chainKeys, hk]
    · simpa [replaceChain, chainKeys, hk] using ih

theorem lookupChain_replaceChain_self {key : Nat} {v : Val} {chain : List HashTableEntry}
    (h : (lookupChain key chain).isSome) : lookupChain key (replaceChain key v chain) = some v := by
  induction chain with
  | nil => simp [lookupChain] at h
  | cons x rest ih =>
    by_cases hk : x.key = key
    · simp [replaceChain, lookupChain, hk]
    · simp only [lookupChain, hk, if_false] at h
      simp [replaceChain, lookupChain, hk, ih h]

theorem lookupChain_replaceChain_ne {key k2 : Nat} (h : k2 ≠ key) (v : Val)
    (chain : List HashTableEntry) :
    lookupChain k2 (replaceChain key v chain) = lookupChain k2 chain := by
  induction chain with
  | nil => rfl
  | cons x rest ih =>
    by_cases hk : x.key = key
    · subst hk
      simp [replaceChain, lookupChain, Ne.symm h]
    · by_cases hk2 : x.key = k2
      · subst hk2
        simp [replaceChain, lookupChain, hk]
      · simp [replaceChain, lookupChain, hk, hk2, ih]

theorem lookupChain_putChain_self (key : Nat) (v : Val) (chain : List HashTableEntry) :
    lookupChain key (putChain key v chain) = some v := by
  unfold putChain
  split
  · next h => exact lookupChain_replaceChain_self h
  · simp [lookupChain]

theorem lookupChain_putChain_ne {key k2 : Nat} (h : k2 ≠ key) (v : Val)
    (chain : List HashTableEntry) :
    lookupChain k2 (putChain key v chain) = lookupChain k2 chain := by
  unfold putChain
  split
  · exact lookupChain_replaceChain_ne h v chain
  · have : key ≠ k2 := fun h2 => h h2.symm
    simp [lookupChain, this]

/-! ## The interface functions in terms of the list functions -/

theorem set_getElem?_same {α : Type} {l : List α} {i : Nat} {a : α} (h : l[i]? = some a) :
    l.set i a = l := by
  induction l generalizing i with
  | nil => rfl
  | cons x xs ih =>
    cases i with
    | zero =>
      simp at h
      simp [h]
    | succ i =>
      simp at h
      simp [ih h]

theorem setBucket_same {w : World} {i : Nat} {chain : List HashTableEntry}
    (h : w.table.buckets[i]? = some chain) : setBucket w i chain = w := by
  unfold setBucket
  rw [set_getElem?_same h]

theorem getItem_eq {w : World} {key : Nat} {chain : List HashTableEntry}
    (h : w.table.buckets[w.table.hash key]? = some chain) :
    getItem w key = some ((lookupChain key chain).getD NULL, w) := by
  unfold getItem findItem
  simp only [h]
  cases hf : findLoop key chain with
  | none =>
    rw [findLoop_eq_none] at hf
    simp [hf]
  | some p =>
    obtain ⟨e, h1, _, h3, _, _⟩ := findLoop_eq_some hf
    simp [deref, h, h1, h3]

theorem insertItem_eq {w : World} {key : Nat} {chain : List HashTableEntry} (v : Val)
    (h : w.table.buckets[w.table.hash key]? = some chain) :
    insertItem w key v
      = some ((lookupChain key chain).getD NULL,
          setBucket w (w.table.hash key) (putChain key v chain)) := by
  unfold insertItem findItem
  simp only [h]
  cases hf : findLoop key chain with
  | none =>
    rw [findLoop_eq_none] at hf
    simp [hf, putChain, setBucket, createHashTableEntry]
  | some p =>
    obtain ⟨e, h1, _, h3, _, h5⟩ := findLoop_eq_some hf
    simp [deref, storeValue, h, h1, h3, h5 v, putChain, setBucket]

theorem removeItem_eq {w : World} {key : Nat} {chain : List HashTableEntry}
    (h : w.table.buckets[w.table.hash key]? = some chain) :
    removeItem w key
      = some ((lookupChain key chain).getD NULL,
          setBucket w (w.table.hash key) (eraseChain key chain)) := by
  unfold removeItem
  simp only [h]
  cases chain with
  | nil => simp [lookupChain, eraseChain, setBucket_same h]
  | cons thisNode next =>
    by_cases hk : thisNode.key = key
    · simp [hk, lookupChain, eraseChain, setBucket]
    · simp only [hk, if_false, removeLoop_eq, lookupChain, eraseChain]
      cases hl : lookupChain key next with
      | none =>
        have : eraseChain key next = next := eraseChain_of_lookupChain_none hl
        simp [this, setBucket_same h]
      | some v => simp [setBucket]

theorem deleteItem_eq {w : World} {key : Nat} {chain : List HashTableEntry}
    (h : w.table.buckets[w.table.hash key]? = some chain) :
    deleteItem w key
      = some { table := (setBucket w (w.table.hash key) (eraseChain key chain)).table,
               freed := w.freed ++ (lookupChain key chain).toList } := by
  unfold deleteItem findItem
  simp only [h]
  cases hf : findLoop key chain with
  | none =>
    rw [findLoop_eq_none] at hf
    simp [hf, eraseChain_of_lookupChain_none hf, setBucket_same h]
  | some p =>
    obtain ⟨e, h1, _, h3, _, _⟩ := findLoop_eq_some hf
    cases chain with
    | nil => simp at h1
    | cons thisNode next =>
      by_cases hk : thisNode.key = key
      · simp [hk, lookupChain, eraseChain, setBucket]
      · simp only [Option.map_some', hk, if_false, deleteLoop_eq_removeLoop, removeLoop_eq,
          lookupChain, eraseChain]
        cases hl : lookupChain key next with
        | none =>
          have : eraseChain key next = next := eraseChain_of_lookupChain_none hl
          simp [this, setBucket_same h]
        | some v => simp [setBucket]

/-! ## Buckets under a call -/

theorem InRange.bucket {t : HashTable} (h : InRange t) (k : Nat) :
    ∃ chain, t.buckets[t.hash k]? = some chain := by
  have hlt : t.hash k < t.buckets.length := by
    rw [h.1]
    exact h.2.2 k
  exact ⟨t.buckets[t.hash k], List.getElem?_eq_getElem hlt⟩

theorem lt_length_of_getElem? {α : Type} {l : List α} {i : Nat} {a : α} (h : l[i]? = some a) :
    i < l.length := by
  rcases Nat.lt_or_ge i l.length with hlt | hge
  · exact hlt
  · rw [List.getElem?_eq_none hge] at h
    exact absurd h (by simp)

theorem bucket_set_same {t : HashTable} {i : Nat} {chain c2 : List HashTableEntry}
    (h : t.buckets[i]? = some chain) : (t.buckets.set i c2)[i]? = some c2 := by
  rw [List.getElem?_set_self (lt_length_of_getElem? h)]

theorem bucket_set_other {t : HashTable} {i j : Nat} (c2 : List HashTableEntry) (h : i ≠ j) :
    (t.buckets.set i c2)[j]? = t.buckets[j]? := by
  rw [List.getElem?_set_ne h]

theorem chainKeys_putChain (k : Nat) (v : Val) (chain : List HashTableEntry) :
    (∀ x ∈ chainKeys (putChain k v chain), x = k ∨ x ∈ chainKeys chain)
      ∧ ((chainKeys chain).Nodup → (chainKeys (putChain k v chain)).Nodup) := by
  unfold putChain
  split
  · rw [chainKeys_replaceChain]
    exact ⟨fun x hx => Or.inr hx, fun h => h⟩
  · next hnone =>
    have hl : lookupChain k chain = none := by
      cases hc : lookupChain k chain with
      | none => rfl
      | some u => simp [hc] at hnone
    rw [lookupChain_eq_none] at hl
    constructor
    · intro x hx
      simpa [chainKeys] using hx
    · intro hnd
      simp only [chainKeys, List.map_cons, List.nodup_cons]
      refine ⟨?_, hnd⟩
      intro hmem
      obtain ⟨e, he, hek⟩ := List.mem_map.mp hmem
      exact hl e he hek

theorem chainKeys_onChain (op : Op) (chain : List HashTableEntry) :
    (∀ x ∈ chainKeys (op.onChain chain), x = op.key ∨ x ∈ chainKeys chain)
      ∧ ((chainKeys chain).Nodup → (chainKeys (op.onChain chain)).Nodup) := by
  cases op with
  | insertItem k v => exact chainKeys_putChain k v chain
  | removeItem k =>
    exact ⟨fun x hx => Or.inr ((chainKeys_eraseChain_sublist k chain).subset hx),
      fun h => h.sublist (chainKeys_eraseChain_sublist k chain)⟩
  | deleteItem k =>
    exact ⟨fun x hx => Or.inr ((chainKeys_eraseChain_sublist k chain).subset hx),
      fun h => h.sublist (chainKeys_eraseChain_sublist k chain)⟩

theorem applyOp_eq {w : World} (hR : InRange w.table) (op : Op) :
    ∃ chain fr, w.table.buckets[w.table.hash op.key]? = some chain
      ∧ applyOp w op = some
          { table := (setBucket w (w.table.hash op.key) (op.onChain chain)).table, freed := fr } := by
  obtain ⟨chain, hc⟩ := hR.bucket op.key
  cases op with
  | insertItem k v =>
    have hc2 : w.table.buckets[w.table.hash k]? = some chain := hc
    exact ⟨chain, w.freed, hc,
      by simp [applyOp, insertItem_eq v hc2, Op.key, Op.onChain, setBucket]⟩
  | removeItem k =>
    have hc2 : w.table.buckets[w.table.hash k]? = some chain := hc
    exact ⟨chain, w.freed, hc, by simp [applyOp, removeItem_eq hc2, Op.key, Op.onChain, setBucket]⟩
  | deleteItem k =>
    have hc2 : w.table.buckets[w.table.hash k]? = some chain := hc
    exact ⟨chain, _, hc, by simp [applyOp, deleteItem_eq hc2, Op.key, Op.onChain, setBucket]; rfl⟩

theorem InRange_setBucket {w : World} (hR : InRange w.table) (i : Nat)
    (chain : List HashTableEntry) : InRange (setBucket w i chain).table := by
  obtain ⟨h1, h2, h3⟩ := hR
  exact ⟨by simpa [setBucket] using h1, h2, h3⟩

theorem Inv_setBucket {w : World} (hI : Inv w.table) {i : Nat} {chain c2 : List HashTableEntry}
    (hc : w.table.buckets[i]? = some chain)
    (hkeys : ∀ x ∈ chainKeys c2, w.table.hash x = i) (hnd : (chainKeys c2).Nodup) :
    Inv (setBucket w i c2).table := by
  refine ⟨InRange_setBucket hI.1 i c2, ?_⟩
  intro j cj hj
  by_cases hij : i = j
  · subst hij
    have : (w.table.buckets.set i c2)[i]? = some c2 := bucket_set_same hc
    simp only [setBucket] at hj
    rw [this] at hj
    cases hj
    exact ⟨hkeys, hnd⟩
  · simp only [setBucket] at hj
    rw [bucket_set_other c2 hij] at hj
    exact hI.2 j cj hj

theorem Inv_applyOp {w w2 : World} (hI : Inv w.table) {op : Op} (h : applyOp w op = some w2) :
    Inv w2.table := by
  obtain ⟨chain, fr, hc, heq⟩ := applyOp_eq hI.1 op
  rw [heq] at h
  cases h
  obtain ⟨hk, hnd⟩ := hI.2 _ chain hc
  obtain ⟨h1, h2⟩ := chainKeys_onChain op chain
  apply Inv_setBucket hI hc
  · intro x hx
    rcases h1 x hx with rfl | hx2
    · rfl
    · exact hk x hx2
  · exact h2 hnd

theorem run_append (w : World) (a b : List Op) :
    run w (a ++ b) = (run w a).bind (fun w2 => run w2 b) := by
  induction a generalizing w with
  | nil => rfl
  | cons op ops ih =>
    simp only [List.cons_append, run]
    cases applyOp w op with
    | none => rfl
    | some w2 => exact ih w2

theorem run_total {w : World} (hI : Inv w.table) (ops : List Op) :
    ∃ w2, run w ops = some w2 ∧ Inv w2.table := by
  induction ops generalizing w with
  | nil => exact ⟨w, rfl, hI⟩
  | cons op ops ih =>
    obtain ⟨chain, fr, _, heq⟩ := applyOp_eq hI.1 op
    obtain ⟨w3, h3, hI3⟩ := ih (Inv_applyOp hI heq)
    exact ⟨w3, by simp [run, heq, h3], hI3⟩

theorem fresh_eq {hashFunction : Nat → Nat} {n : Nat} (hn : 1 ≤ n) :
    fresh hashFunction n
      = some { table := { buckets := List.replicate n [], hash := hashFunction, num_buckets := n },
               freed := [] } := by
  have : n ≠ 0 := by omega
  simp [fresh, createHashTable, this]

theorem Inv_fresh {hashFunction : Nat → Nat} {n : Nat} (hn : 1 ≤ n)
    (hh : ∀ k, hashFunction k < n) :
    Inv ({ buckets := List.replicate n [], hash := hashFunction, num_buckets := n } : HashTable) := by
  refine ⟨⟨by simp, hn, hh⟩, ?_⟩
  intro i chain hc
  have hmem : chain ∈ List.replicate n ([] : List HashTableEntry) := List.mem_iff_getElem?.mpr ⟨i, hc⟩
  have : chain = [] := (List.mem_replicate.mp hmem).2
  subst this
  simp [chainKeys]

theorem reached_total {hashFunction : Nat → Nat} {n : Nat} (hn : 1 ≤ n)
    (hh : ∀ k, hashFunction k < n) (ops : List Op) :
    ∃ w, ReachedBy hashFunction n ops w ∧ Inv w.table := by
  obtain ⟨w, hw, hI⟩ := @run_total ⟨⟨List.replicate n [], hashFunction, n⟩, []⟩
    (Inv_fresh hn hh) ops
  exact ⟨w, ⟨hn, hh, by simp [fresh_eq hn, hw]⟩, hI⟩

/-! ## What a search finds, before and after a call -/

theorem lookupTable_of_bucket {t : HashTable} {k : Nat} {chain : List HashTableEntry}
    (h : t.buckets[t.hash k]? = some chain) : lookupTable t k = lookupChain k chain := by
  simp [lookupTable, h]

theorem lookupTable_of_NoEntry {t : HashTable} {k : Nat} (h : NoEntry t k) :
    lookupTable t k = none := by
  unfold lookupTable
  cases hc : t.buckets[t.hash k]? with
  | none => rfl
  | some chain =>
    exact lookupChain_eq_none.mpr (h chain (List.getElem?_mem hc))

theorem lookupTable_of_HasEntry {t : HashTable} {k : Nat} {v : Val} (h : HasEntry t k v) :
    lookupTable t k = some v := by
  obtain ⟨before, after, hc, hb⟩ := h
  rw [lookupTable_of_bucket hc]
  exact lookupChain_append hb

theorem getItem_lookup {w : World} (hR : InRange w.table) (k : Nat) :
    getItem w k = some ((lookupTable w.table k).getD NULL, w) := by
  obtain ⟨chain, hc⟩ := hR.bucket k
  rw [getItem_eq hc, lookupTable_of_bucket hc]

theorem lookupTable_setBucket_same {w : World} {k : Nat} {chain c2 : List HashTableEntry}
    (hc : w.table.buckets[w.table.hash k]? = some chain) :
    lookupTable (setBucket w (w.table.hash k) c2).table k = lookupChain k c2 := by
  have : (setBucket w (w.table.hash k) c2).table.buckets[w.table.hash k]? = some c2 :=
    bucket_set_same hc
  exact lookupTable_of_bucket this

theorem lookupTable_setBucket {w : World} {i k : Nat} {chain c2 : List HashTableEntry}
    (hc : w.table.buckets[i]? = some chain)
    (h : lookupChain k c2 = lookupChain k chain) :
    lookupTable (setBucket w i c2).table k = lookupTable w.table k := by
  by_cases hi : i = w.table.hash k
  · subst hi
    rw [lookupTable_setBucket_same hc, lookupTable_of_bucket hc, h]
  · simp only [lookupTable, setBucket]
    rw [bucket_set_other c2 hi]

theorem lookupChain_onChain_ne {op : Op} {k : Nat} (h : op.key ≠ k)
    (chain : List HashTableEntry) : lookupChain k (op.onChain chain) = lookupChain k chain := by
  cases op with
  | insertItem k2 v => exact lookupChain_putChain_ne (fun h2 => h h2.symm) v chain
  | removeItem k2 => exact lookupChain_eraseChain_ne (fun h2 => h h2.symm) chain
  | deleteItem k2 => exact lookupChain_eraseChain_ne (fun h2 => h h2.symm) chain

theorem lookupTable_applyOp_ne {w w2 : World} (hR : InRange w.table) {op : Op} {k : Nat}
    (hne : op.key ≠ k) (h : applyOp w op = some w2) :
    lookupTable w2.table k = lookupTable w.table k := by
  obtain ⟨chain, fr, hc, heq⟩ := applyOp_eq hR op
  rw [heq] at h
  cases h
  exact lookupTable_setBucket hc (lookupChain_onChain_ne hne chain)

theorem lookupTable_applyOp_none {w w2 : World} (hR : InRange w.table) {op : Op} {k : Nat}
    (hni : ¬ op.insertsKey k) (hnone : lookupTable w.table k = none)
    (h : applyOp w op = some w2) : lookupTable w2.table k = none := by
  by_cases hne : op.key = k
  · obtain ⟨chain, fr, hc, heq⟩ := applyOp_eq hR op
    rw [heq] at h
    cases h
    rw [hne] at hc
    rw [lookupTable_of_bucket hc] at hnone
    rw [hne, lookupTable_setBucket_same hc]
    cases op with
    | insertItem k2 v => exact absurd hne hni
    | removeItem k2 =>
      have : k2 = k := hne
      subst this
      simp [Op.onChain, eraseChain_of_lookupChain_none hnone, hnone]
    | deleteItem k2 =>
      have : k2 = k := hne
      subst this
      simp [Op.onChain, eraseChain_of_lookupChain_none hnone, hnone]
  · rw [lookupTable_applyOp_ne hR hne h]
    exact hnone

theorem lookupTable_run_ne {w w2 : World} (hI : Inv w.table) {ops : List Op} {k : Nat}
    (hne : ∀ op ∈ ops, op.key ≠ k) (h : run w ops = some w2) :
    lookupTable w2.table k = lookupTable w.table k := by
  induction ops generalizing w with
  | nil =>
    cases h
    rfl
  | cons op ops ih =>
    simp only [run] at h
    cases ha : applyOp w op with
    | none => simp [ha] at h
    | some w3 =>
      simp only [ha] at h
      rw [ih (Inv_applyOp hI ha) (fun o ho => hne o (List.mem_cons_of_mem _ ho)) h]
      exact lookupTable_applyOp_ne hI.1 (hne op (List.mem_cons_self _ _)) ha

theorem lookupTable_run_none {w w2 : World} (hI : Inv w.table) {ops : List Op} {k : Nat}
    (hni : ∀ op ∈ ops, ¬ op.insertsKey k) (hnone : lookupTable w.table k = none)
    (h : run w ops = some w2) : lookupTable w2.table k = none := by
  induction ops generalizing w with
  | nil =>
    cases h
    exact hnone
  | cons op ops ih =>
    simp only [run] at h
    cases ha : applyOp w op with
    | none => simp [ha] at h
    | some w3 =>
      simp only [ha] at h
      exact ih (Inv_applyOp hI ha) (fun o ho => hni o (List.mem_cons_of_mem _ ho))
        (lookupTable_applyOp_none hI.1 (hni op (List.mem_cons_self _ _)) hnone ha) h

/-! ## Results of the calls from what a search finds -/

theorem Inv_run {w w2 : World} (hI : Inv w.table) {ops : List Op} (h : run w ops = some w2) :
    Inv w2.table := by
  obtain ⟨w3, h3, hI3⟩ := run_total hI ops
  rw [h] at h3
  cases h3
  exact hI3

theorem lookupTable_insertItem {w w2 : World} (hR : InRange w.table) {k : Nat} {v : Val}
    (h : applyOp w (Op.insertItem k v) = some w2) : lookupTable w2.table k = some v := by
  obtain ⟨chain, hc⟩ := hR.bucket k
  simp only [applyOp, insertItem_eq v hc, Option.map_some', Option.some.injEq] at h
  subst h
  rw [lookupTable_setBucket_same hc]
  exact lookupChain_putChain_self k v chain

theorem removeItem_lookup {w : World} (hR : InRange w.table) (k : Nat) :
    ∃ w2, removeItem w k = some ((lookupTable w.table k).getD NULL, w2) := by
  obtain ⟨chain, hc⟩ := hR.bucket k
  exact ⟨_, by rw [removeItem_eq hc, lookupTable_of_bucket hc]⟩

theorem removeItem_of_lookup_none {w : World} (hR : InRange w.table) {k : Nat}
    (h : lookupTable w.table k = none) : removeItem w k = some (NULL, w) := by
  obtain ⟨chain, hc⟩ := hR.bucket k
  rw [lookupTable_of_bucket hc] at h
  rw [removeItem_eq hc, h, eraseChain_of_lookupChain_none h, setBucket_same hc]
  rfl

theorem deleteItem_of_lookup_none {w : World} (hR : InRange w.table) {k : Nat}
    (h : lookupTable w.table k = none) : deleteItem w k = some w := by
  obtain ⟨chain, hc⟩ := hR.bucket k
  rw [lookupTable_of_bucket hc] at h
  rw [deleteItem_eq hc, h, eraseChain_of_lookupChain_none h, setBucket_same hc]
  simp

theorem sampleWorld_InRange : InRange sampleWorld.table :=
  ⟨rfl, by decide, fun k => Nat.mod_lt k (by decide)⟩

theorem testHash_lt (k : Nat) : testHash k < 3 := Nat.mod_lt k (by decide)

theorem NoEntry_of_lookup_none {t : HashTable} (hI : Inv t) {k : Nat}
    (h : lookupTable t k = none) : NoEntry t k := by
  intro chain hmem e he hek
  obtain ⟨i, hi⟩ := List.mem_iff_getElem?.mp hmem
  have hkey : e.key ∈ chainKeys chain := List.mem_map_of_mem _ he
  have hhash : t.hash e.key = i := (hI.2 i chain hi).1 _ hkey
  rw [hek] at hhash
  rw [← hhash] at hi
  rw [lookupTable_of_bucket hi, lookupChain_eq_none] at h
  exact h e he hek

theorem lookupTable_after_erase {w : World} (hI : Inv w.table) (k : Nat)
    {chain : List HashTableEntry} (hc : w.table.buckets[w.table.hash k]? = some chain) :
    Inv (setBucket w (w.table.hash k) (eraseChain k chain)).table
      ∧ lookupTable (setBucket w (w.table.hash k) (eraseChain k chain)).table k = none := by
  obtain ⟨hk, hnd⟩ := hI.2 _ chain hc
  constructor
  · exact Inv_setBucket hI hc
      (fun x hx => hk x ((chainKeys_eraseChain_sublist k chain).subset hx))
      (hnd.sublist (chainKeys_eraseChain_sublist k chain))
  · rw [lookupTable_setBucket_same hc]
    exact lookupChain_eraseChain_self hnd

theorem entryAt_eq_some {t : HashTable} {i j : Nat} {e : HashTableEntry}
    (h : entryAt t i j = some e) : ∃ chain, t.buckets[i]? = some chain ∧ chain[j]? = some e := by
  unfold entryAt at h
  cases hc : t.buckets[i]? with
  | none => simp [hc] at h
  | some chain =>
    simp only [hc] at h
    exact ⟨chain, rfl, h⟩

theorem Inv.unique {t : HashTable} (hI : Inv t) {i j i2 j2 : Nat} {e e2 : HashTableEntry}
    (h1 : entryAt t i j = some e) (h2 : entryAt t i2 j2 = some e2) (hk : e.key = e2.key) :
    i = i2 ∧ j = j2 := by
  obtain ⟨c1, hc1, he1⟩ := entryAt_eq_some h1
  obtain ⟨c2, hc2, he2⟩ := entryAt_eq_some h2
  have hi1 : t.hash e.key = i :=
    (hI.2 i c1 hc1).1 _ (List.mem_map_of_mem _ (List.getElem?_mem he1))
  have hi2 : t.hash e2.key = i2 :=
    (hI.2 i2 c2 hc2).1 _ (List.mem_map_of_mem _ (List.getElem?_mem he2))
  have hii : i = i2 := by rw [← hi1, ← hi2, hk]
  subst hii
  rw [hc1] at hc2
  cases hc2
  refine ⟨rfl, ?_⟩
  have hnd := (hI.2 i c1 hc1).2
  have hj : j < (chainKeys c1).length := by
    simpa [chainKeys] using lt_length_of_getElem? he1
  apply List.getElem?_inj hj hnd
  simp [chainKeys, List.getElem?_map, he1, he2, hk]

/-! ## The claims -/

/-- C1: in a table with `n >= 1` buckets and a hash into `[0, n)`, for a key `k` that
no entry of the table has and any value `v`, `insertItem(k, v)` returns `NULL` and
`getItem(k)` on the resulting table returns `v`. -/
theorem insertItem_new_then_getItem (w : World) (k : Nat) (v : Val)
    (hR : InRange w.table) (hno : NoEntry w.table k) :
    ∃ w2, insertItem w k v = some (NULL, w2) ∧ getItem w2 k = some (v, w2) := by
  obtain ⟨chain, hc⟩ := hR.bucket k
  have hl : lookupChain k chain = none := by
    rw [← lookupTable_of_bucket hc]
    exact lookupTable_of_NoEntry hno
  refine ⟨setBucket w (w.table.hash k) (putChain k v chain), ?_, ?_⟩
  · rw [insertItem_eq v hc, hl]
    rfl
  · rw [getItem_lookup (InRange_setBucket hR _ _), lookupTable_setBucket_same hc,
      lookupChain_putChain_self]
    rfl

theorem insertItem_new_then_getItem_witness :
    InRange sampleWorld.table ∧ NoEntry sampleWorld.table 4
      ∧ ∃ w2, insertItem sampleWorld 4 5 = some (NULL, w2) ∧ getItem w2 4 = some (5, w2) :=
  ⟨sampleWorld_InRange, by unfold NoEntry; decide,
    insertItem_new_then_getItem sampleWorld 4 5 sampleWorld_InRange (by unfold NoEntry; decide)⟩

/-- C2: when the key `k` already has an entry holding `old` (the first entry with key
`k` in the chain of bucket `hash k`), `insertItem(k, v)` returns `old`, for every `v`
(`v = old` included), and `getItem(k)` on the resulting table returns `v`. -/
theorem insertItem_existing_then_getItem (w : World) (k : Nat) (old v : Val)
    (h : HasEntry w.table k old) :
    ∃ w2, insertItem w k v = some (old, w2) ∧ getItem w2 k = some (v, w2) := by
  have hl := lookupTable_of_HasEntry h
  obtain ⟨before, after, hc, _⟩ := h
  rw [lookupTable_of_bucket hc] at hl
  generalize before ++ { key := k, value := old } :: after = chain at hc hl
  refine ⟨setBucket w (w.table.hash k) (putChain k v chain), ?_, ?_⟩
  · rw [insertItem_eq v hc, hl]
    rfl
  · have hb : (setBucket w (w.table.hash k) (putChain k v chain)).table.buckets[w.table.hash k]?
        = some (putChain k v chain) := bucket_set_same hc
    rw [getItem_eq hb, lookupChain_putChain_self]
    rfl

theorem insertItem_existing_then_getItem_witness :
    HasEntry sampleWorld.table 7 20
      ∧ ∃ w2, insertItem sampleWorld 7 21 = some (20, w2) ∧ getItem w2 7 = some (21, w2) :=
  ⟨⟨[⟨19, 30⟩], [], rfl, by decide⟩,
    insertItem_existing_then_getItem sampleWorld 7 20 21 ⟨[⟨19, 30⟩], [], rfl, by decide⟩⟩

/-- C3: after `createHashTable(hash, n)` with `n >= 1` and `hash` into `[0, n)`, and any
calls of `insertItem`, `removeItem` and `deleteItem` of which the last one on the key
`k` is `insertItem(k, v)`, the calls all return and `removeItem(k)` returns `v`,
wherever the entry of `k` stands in its chain. -/
theorem removeItem_returns_last_inserted (hashFunction : Nat → Nat) (n : Nat)
    (before after : List Op) (k : Nat) (v : Val)
    (hn : 1 ≤ n) (hh : ∀ x, hashFunction x < n) (hafter : ∀ op ∈ after, op.key ≠ k) :
    ∃ w w2, ReachedBy hashFunction n (before ++ Op.insertItem k v :: after) w
      ∧ removeItem w k = some (v, w2) := by
  obtain ⟨w, hreach, hI⟩ := reached_total hn hh (before ++ Op.insertItem k v :: after)
  have hrun := hreach.2.2
  rw [fresh_eq hn, Option.some_bind, run_append] at hrun
  cases hb : run ⟨⟨List.replicate n [], hashFunction, n⟩, []⟩ before with
  | none => simp [hb] at hrun
  | some wa =>
    have hIa : Inv wa.table := Inv_run (Inv_fresh hn hh) hb
    simp only [hb, Option.some_bind, run] at hrun
    cases hi : applyOp wa (Op.insertItem k v) with
    | none => simp [hi] at hrun
    | some wb =>
      simp only [hi] at hrun
      have hlb : lookupTable wb.table k = some v := lookupTable_insertItem hIa.1 hi
      have hlw : lookupTable w.table k = some v := by
        rw [lookupTable_run_ne (Inv_applyOp hIa hi) hafter hrun]
        exact hlb
      obtain ⟨w2, h2⟩ := removeItem_lookup hI.1 k
      rw [hlw] at h2
      exact ⟨w, w2, hreach, h2⟩

theorem removeItem_returns_last_inserted_witness :
    1 ≤ 3 ∧ (∀ x, testHash x < 3)
      ∧ (∀ op ∈ [Op.insertItem 4 40, Op.removeItem 3, Op.insertItem 1 50], op.key ≠ 7)
      ∧ ∃ w w2, ReachedBy testHash 3
          ([Op.insertItem 3 10, Op.insertItem 7 21]
            ++ Op.insertItem 7 20 :: [Op.insertItem 4 40, Op.removeItem 3, Op.insertItem 1 50]) w
        ∧ removeItem w 7 = some (20, w2) :=
  ⟨by decide, testHash_lt, by decide,
    removeItem_returns_last_inserted testHash 3 [Op.insertItem 3 10, Op.insertItem 7 21]
      [Op.insertItem 4 40, Op.removeItem 3, Op.insertItem 1 50] 7 20 (by decide) testHash_lt
      (by decide)⟩

/-- C4: after `createHashTable(hash, n)` with `n >= 1` and `hash` into `[0, n)` and any
calls of `insertItem`, `removeItem` and `deleteItem`, the calls all return, and for
every key `k`, after `removeItem(k)` no entry of any bucket has the key `k`,
`getItem(k)` returns `NULL` and a second `removeItem(k)` returns `NULL`. -/
theorem removeItem_then_absent (hashFunction : Nat → Nat) (n : Nat) (ops : List Op) (k : Nat)
    (hn : 1 ≤ n) (hh : ∀ x, hashFunction x < n) :
    ∃ w r w1, ReachedBy hashFunction n ops w ∧ removeItem w k = some (r, w1)
      ∧ NoEntry w1.table k ∧ getItem w1 k = some (NULL, w1)
      ∧ removeItem w1 k = some (NULL, w1) := by
  obtain ⟨w, hreach, hI⟩ := reached_total hn hh ops
  obtain ⟨chain, hc⟩ := hI.1.bucket k
  obtain ⟨hI1, hl1⟩ := lookupTable_after_erase hI k hc
  refine ⟨w, _, _, hreach, removeItem_eq hc, NoEntry_of_lookup_none hI1 hl1, ?_,
    removeItem_of_lookup_none hI1.1 hl1⟩
  rw [getItem_lookup hI1.1, hl1]
  rfl

theorem removeItem_then_absent_witness :
    1 ≤ 3 ∧ (∀ x, testHash x < 3)
      ∧ ∃ w r w1, ReachedBy testHash 3
          [Op.insertItem 3 10, Op.insertItem 7 20, Op.insertItem 19 30, Op.insertItem 4 40] w
        ∧ removeItem w 7 = some (r, w1) ∧ NoEntry w1.table 7
        ∧ getItem w1 7 = some (NULL, w1) ∧ removeItem w1 7 = some (NULL, w1) :=
  ⟨by decide, testHash_lt,
    removeItem_then_absent testHash 3
      [Op.insertItem 3 10, Op.insertItem 7 20, Op.insertItem 19 30, Op.insertItem 4 40] 7
      (by decide) testHash_lt⟩

/-- C5: after `createHashTable(hash, n)` with `n >= 1` and `hash` into `[0, n)` and any
calls of `insertItem`, `removeItem` and `deleteItem`, the calls all return, and for
every key `k`, `deleteItem(k)` returns and `getItem(k)` then returns `NULL`, wherever
the entry of `k` stood in its chain. -/
theorem deleteItem_then_getItem (hashFunction : Nat → Nat) (n : Nat) (ops : List Op) (k : Nat)
    (hn : 1 ≤ n) (hh : ∀ x, hashFunction x < n) :
    ∃ w w1, ReachedBy hashFunction n ops w ∧ deleteItem w k = some w1
      ∧ getItem w1 k = some (NULL, w1) := by
  obtain ⟨w, hreach, hI⟩ := reached_total hn hh ops
  obtain ⟨chain, hc⟩ := hI.1.bucket k
  obtain ⟨hI1, hl1⟩ := lookupTable_after_erase hI k hc
  refine ⟨w, _, hreach, deleteItem_eq hc, ?_⟩
  have hR : InRange (setBucket w (w.table.hash k) (eraseChain k chain)).table := hI1.1
  exact (@getItem_lookup ⟨(setBucket w (w.table.hash k) (eraseChain k chain)).table,
    w.freed ++ (lookupChain k chain).toList⟩ hR k).trans (by rw [hl1]; rfl)

theorem deleteItem_then_getItem_witness :
    1 ≤ 3 ∧ (∀ x, testHash x < 3)
      ∧ ∃ w w1, ReachedBy testHash 3
          [Op.insertItem 3 10, Op.insertItem 7 20, Op.insertItem 19 30, Op.insertItem 4 40] w
        ∧ deleteItem w 7 = some w1 ∧ getItem w1 7 = some (NULL, w1) :=
  ⟨by decide, testHash_lt,
    deleteItem_then_getItem testHash 3
      [Op.insertItem 3 10, Op.insertItem 7 20, Op.insertItem 19 30, Op.insertItem 4 40] 7
      (by decide) testHash_lt⟩

/-- C6: in a table with a hash into `[0, num_buckets)`, for a key `k` that no entry of
the table has, `deleteItem(k)` returns and leaves the state as it was: the same
buckets with the same chains (keys, values, order) and the same log of freed values,
so nothing is released. -/
theorem deleteItem_absent_unchanged (w : World) (k : Nat)
    (hR : InRange w.table) (hno : NoEntry w.table k) :
    deleteItem w k = some w :=
  deleteItem_of_lookup_none hR (lookupTable_of_NoEntry hno)

theorem deleteItem_absent_unchanged_witness :
    InRange sampleWorld.table ∧ NoEntry sampleWorld.table 4
      ∧ deleteItem sampleWorld 4 = some sampleWorld :=
  ⟨sampleWorld_InRange, by unfold NoEntry; decide,
    deleteItem_absent_unchanged sampleWorld 4 sampleWorld_InRange (by unfold NoEntry; decide)⟩

/-- C7: in a table with a hash into `[0, num_buckets)` (the table without entries
included), for a key `k` that no entry of the table has, `removeItem(k)` returns
`NULL` and leaves the state, hence every chain, as it was. -/
theorem removeItem_absent_unchanged (w : World) (k : Nat)
    (hR : InRange w.table) (hno : NoEntry w.table k) :
    removeItem w k = some (NULL, w) :=
  removeItem_of_lookup_none hR (lookupTable_of_NoEntry hno)

theorem removeItem_absent_unchanged_witness :
    InRange sampleWorld.table ∧ NoEntry sampleWorld.table 10
      ∧ removeItem sampleWorld 10 = some (NULL, sampleWorld) :=
  ⟨sampleWorld_InRange, by unfold NoEntry; decide,
    removeItem_absent_unchanged sampleWorld 10 sampleWorld_InRange
      (by unfold NoEntry; decide)⟩

/-- C8: after `createHashTable(hash, n)` with `n >= 1` and `hash` into `[0, n)` and any
calls of `insertItem`, `removeItem` and `deleteItem` none of which is an `insertItem`
on the key `k`, the calls all return and `getItem(k)` returns `NULL`; so does
`getItem(k)` on the table as created. -/
theorem getItem_never_inserted (hashFunction : Nat → Nat) (n : Nat) (ops : List Op) (k : Nat)
    (hn : 1 ≤ n) (hh : ∀ x, hashFunction x < n) (hops : ∀ op ∈ ops, ¬ op.insertsKey k) :
    (∃ w, ReachedBy hashFunction n ops w ∧ getItem w k = some (NULL, w))
      ∧ ∃ w0, fresh hashFunction n = some w0 ∧ getItem w0 k = some (NULL, w0) := by
  have hI0 := Inv_fresh hn hh
  have hl0 : lookupTable
      ({ buckets := List.replicate n [], hash := hashFunction, num_buckets := n } : HashTable) k
        = none := by
    obtain ⟨chain, hc⟩ := hI0.1.bucket k
    have hmem : chain ∈ List.replicate n ([] : List HashTableEntry) := List.getElem?_mem hc
    rw [lookupTable_of_bucket hc, (List.mem_replicate.mp hmem).2]
    rfl
  constructor
  · obtain ⟨w, hreach, hI⟩ := reached_total hn hh ops
    have hrun := hreach.2.2
    rw [fresh_eq hn, Option.some_bind] at hrun
    have hl : lookupTable w.table k = none :=
      @lookupTable_run_none ⟨⟨List.replicate n [], hashFunction, n⟩, []⟩ w hI0 ops k hops hl0 hrun
    refine ⟨w, hreach, ?_⟩
    rw [getItem_lookup hI.1, hl]
    rfl
  · refine ⟨_, fresh_eq hn, ?_⟩
    rw [@getItem_lookup ⟨⟨List.replicate n [], hashFunction, n⟩, []⟩ hI0.1 k, hl0]
    rfl

theorem getItem_never_inserted_witness :
    1 ≤ 3 ∧ (∀ x, testHash x < 3)
      ∧ (∀ op ∈ [Op.insertItem 3 10, Op.insertItem 7 20, Op.removeItem 10, Op.deleteItem 7],
          ¬ op.insertsKey 10)
      ∧ (∃ w, ReachedBy testHash 3
            [Op.insertItem 3 10, Op.insertItem 7 20, Op.removeItem 10, Op.deleteItem 7] w
          ∧ getItem w 10 = some (NULL, w))
      ∧ ∃ w0, fresh testHash 3 = some w0 ∧ getItem w0 10 = some (NULL, w0) :=
  ⟨by decide, testHash_lt, by simp [Op.insertsKey],
    getItem_never_inserted testHash 3
      [Op.insertItem 3 10, Op.insertItem 7 20, Op.removeItem 10, Op.deleteItem 7] 10
      (by decide) testHash_lt (by simp [Op.insertsKey])⟩

/-- C9: after `createHashTable(hash, n)` with `n >= 1` and `hash` into `[0, n)` and any
calls of `insertItem`, `removeItem` and `deleteItem`, the calls all return and each
key occurs in at most one entry of the whole table: two entries with the same key, at
position `j` of bucket `i` and position `j2` of bucket `i2`, are the same entry. -/
theorem keys_unique_in_table (hashFunction : Nat → Nat) (n : Nat) (ops : List Op)
    (hn : 1 ≤ n) (hh : ∀ x, hashFunction x < n) :
    ∃ w, ReachedBy hashFunction n ops w
      ∧ ∀ i j i2 j2 e e2, entryAt w.table i j = some e → entryAt w.table i2 j2 = some e2 →
          e.key = e2.key → i = i2 ∧ j = j2 := by
  obtain ⟨w, hreach, hI⟩ := reached_total hn hh ops
  exact ⟨w, hreach, fun i j i2 j2 e e2 h1 h2 hk => hI.unique h1 h2 hk⟩

theorem keys_unique_in_table_witness :
    1 ≤ 3 ∧ (∀ x, testHash x < 3)
      ∧ ∃ w, ReachedBy testHash 3
          [Op.insertItem 3 10, Op.insertItem 7 20, Op.insertItem 7 21, Op.insertItem 19 30] w
        ∧ ∀ i j i2 j2 e e2, entryAt w.table i j = some e → entryAt w.table i2 j2 = some e2 →
            e.key = e2.key → i = i2 ∧ j = j2 :=
  ⟨by decide, testHash_lt,
    keys_unique_in_table testHash 3
      [Op.insertItem 3 10, Op.insertItem 7 20, Op.insertItem 7 21, Op.insertItem 19 30]
      (by decide) testHash_lt⟩

/-- C10: in a table with a hash into `[0, num_buckets)`, for keys `k2 ≠ k` and any
value `v`, `insertItem(k, v)` returns and `getItem(k2)` returns the same value after
it as before it, whether `k` is new or overwritten and whether or not `k` and `k2`
share a bucket. -/
theorem getItem_other_after_insertItem (w : World) (k k2 : Nat) (v : Val)
    (hR : InRange w.table) (hne : k2 ≠ k) :
    ∃ r w2 x, insertItem w k v = some (r, w2) ∧ getItem w k2 = some (x, w)
      ∧ getItem w2 k2 = some (x, w2) := by
  obtain ⟨chain, hc⟩ := hR.bucket k
  refine ⟨_, _, _, insertItem_eq v hc, getItem_lookup hR k2, ?_⟩
  rw [getItem_lookup (InRange_setBucket hR _ _),
    lookupTable_setBucket hc (lookupChain_putChain_ne hne v chain)]

theorem getItem_other_after_insertItem_witness :
    InRange sampleWorld.table ∧ 19 ≠ 7
      ∧ ∃ r w2 x, insertItem sampleWorld 7 21 = some (r, w2)
          ∧ getItem sampleWorld 19 = some (x, sampleWorld) ∧ getItem w2 19 = some (x, w2) :=
  ⟨sampleWorld_InRange, by decide,
    getItem_other_after_insertItem sampleWorld 7 19 21 sampleWorld_InRange (by decide)⟩

/-! ## Further facts used by the claims below -/

theorem bucket_of_lt {t : HashTable} {i : Nat} (h : i < t.buckets.length) :
    ∃ chain, t.buckets[i]? = some chain :=
  ⟨t.buckets[i], List.getElem?_eq_getElem h⟩

theorem applyOp_hash {w w2 : World} (hR : InRange w.table) {op : Op}
    (h : applyOp w op = some w2) : w2.table.hash = w.table.hash := by
  obtain ⟨chain, fr, _, heq⟩ := applyOp_eq hR op
  rw [heq] at h
  cases h
  rfl

theorem run_hash {w w2 : World} (hI : Inv w.table) {ops : List Op} (h : run w ops = some w2) :
    w2.table.hash = w.table.hash := by
  induction ops generalizing w with
  | nil =>
    cases h
    rfl
  | cons op ops ih =>
    simp only [run] at h
    cases ha : applyOp w op with
    | none => simp [ha] at h
    | some w3 =>
      simp only [ha] at h
      rw [ih (Inv_applyOp hI ha) h]
      exact applyOp_hash hI.1 ha

theorem reached_hash {hashFunction : Nat → Nat} {n : Nat} {ops : List Op} {w : World}
    (h : ReachedBy hashFunction n ops w) : w.table.hash = hashFunction := by
  obtain ⟨hn, hh, hrun⟩ := h
  rw [fresh_eq hn, Option.some_bind] at hrun
  exact @run_hash ⟨⟨List.replicate n [], hashFunction, n⟩, []⟩ w (Inv_fresh hn hh) ops hrun

theorem sampleWorld_reached :
    ReachedBy testHash 3 [Op.insertItem 3 10, Op.insertItem 7 20, Op.insertItem 19 30]
      sampleWorld :=
  ⟨by decide, testHash_lt, rfl⟩

/-- C11: after `createHashTable(hash, n)` with `n >= 1` and `hash` into `[0, n)` and any
calls of `insertItem`, `removeItem` and `deleteItem`, the calls all return, and for keys
`k2 ≠ k`, `removeItem(k)` returns and `getItem(k2)` returns the same value after it as
before it, whether or not the two keys share a bucket and wherever the entry of `k`
stood in its chain. -/
theorem getItem_other_after_removeItem (hashFunction : Nat → Nat) (n : Nat) (ops : List Op)
    (k k2 : Nat) (hn : 1 ≤ n) (hh : ∀ x, hashFunction x < n) (hne : k2 ≠ k) :
    ∃ w r w2 x, ReachedBy hashFunction n ops w ∧ removeItem w k = some (r, w2)
      ∧ getItem w k2 = some (x, w) ∧ getItem w2 k2 = some (x, w2) := by
  obtain ⟨w, hreach, hI⟩ := reached_total hn hh ops
  obtain ⟨chain, hc⟩ := hI.1.bucket k
  refine ⟨w, _, _, _, hreach, removeItem_eq hc, getItem_lookup hI.1 k2, ?_⟩
  rw [getItem_lookup (InRange_setBucket hI.1 _ _),
    lookupTable_setBucket hc (lookupChain_eraseChain_ne hne chain)]

theorem getItem_other_after_removeItem_witness :
    1 ≤ 3 ∧ (∀ x, testHash x < 3) ∧ 7 ≠ 4
      ∧ ∃ w r w2 x, ReachedBy testHash 3
          [Op.insertItem 7 20, Op.insertItem 4 40, Op.insertItem 1 50] w
        ∧ removeItem w 4 = some (r, w2)
        ∧ getItem w 7 = some (x, w) ∧ getItem w2 7 = some (x, w2) :=
  ⟨by decide, testHash_lt, by decide,
    getItem_other_after_removeItem testHash 3
      [Op.insertItem 7 20, Op.insertItem 4 40, Op.insertItem 1 50] 4 7
      (by decide) testHash_lt (by decide)⟩

/-- C12: `createHashTable(hash, numBuckets)` fails exactly when `numBuckets` is 0; for
`numBuckets >= 1` it returns a table with `numBuckets` buckets, all of them empty,
that holds the given hash function. -/
theorem createHashTable_result (hashFunction : Nat → Nat) (numBuckets : Nat) :
    (createHashTable hashFunction numBuckets = none ↔ numBuckets = 0)
      ∧ (1 ≤ numBuckets → ∃ t, createHashTable hashFunction numBuckets = some t
          ∧ t.num_buckets = numBuckets ∧ t.buckets.length = numBuckets
          ∧ (∀ chain ∈ t.buckets, chain = []) ∧ t.hash = hashFunction) := by
  constructor
  · unfold createHashTable
    by_cases h : numBuckets = 0 <;> simp [h]
  · intro hn
    have h : numBuckets ≠ 0 := by omega
    refine ⟨⟨List.replicate numBuckets [], hashFunction, numBuckets⟩, ?_, rfl, ?_, ?_, rfl⟩
    · simp [createHashTable, h]
    · simp
    · intro chain hmem
      exact (List.mem_replicate.mp hmem).2

theorem createHashTable_result_witness :
    1 ≤ 3 ∧ (createHashTable testHash 0 = none ↔ 0 = 0)
      ∧ ∃ t, createHashTable testHash 3 = some t
          ∧ t.num_buckets = 3 ∧ t.buckets.length = 3
          ∧ (∀ chain ∈ t.buckets, chain = []) ∧ t.hash = testHash :=
  ⟨by decide, (createHashTable_result testHash 0).1,
    (createHashTable_result testHash 3).2 (by decide)⟩

/-- C15: after `createHashTable(hash, n)` with `n >= 1` and `hash` into `[0, n)` and any
calls of `insertItem`, `removeItem` and `deleteItem`, the calls all return, the table
still holds `hash`, and every entry in the chain of bucket `i` has a key with
`hash(key) = i`. -/
theorem entries_in_bucket_of_key (hashFunction : Nat → Nat) (n : Nat) (ops : List Op)
    (hn : 1 ≤ n) (hh : ∀ x, hashFunction x < n) :
    ∃ w, ReachedBy hashFunction n ops w ∧ w.table.hash = hashFunction
      ∧ ∀ i j e, entryAt w.table i j = some e → hashFunction e.key = i := by
  obtain ⟨w, hreach, hI⟩ := reached_total hn hh ops
  have hhash := reached_hash hreach
  refine ⟨w, hreach, hhash, ?_⟩
  intro i j e he
  obtain ⟨chain, hc, hj⟩ := entryAt_eq_some he
  rw [← hhash]
  exact (hI.2 i chain hc).1 _ (List.mem_map_of_mem _ (List.getElem?_mem hj))

theorem entries_in_bucket_of_key_witness :
    1 ≤ 3 ∧ (∀ x, testHash x < 3)
      ∧ ∃ w, ReachedBy testHash 3
          [Op.insertItem 3 10, Op.insertItem 7 20, Op.removeItem 3, Op.insertItem 19 30] w
        ∧ w.table.hash = testHash
        ∧ ∀ i j e, entryAt w.table i j = some e → testHash e.key = i :=
  ⟨by decide, testHash_lt,
    entries_in_bucket_of_key testHash 3
      [Op.insertItem 3 10, Op.insertItem 7 20, Op.removeItem 3, Op.insertItem 19 30]
      (by decide) testHash_lt⟩

theorem findItem_cases {t : HashTable} {k : Nat} {chain : List HashTableEntry}
    (hc : t.buckets[t.hash k]? = some chain) :
    (findItem t k = some none ∧ lookupChain k chain = none)
      ∨ ∃ p e, findItem t k = some (some p) ∧ deref t p = some e ∧ e.key = k
          ∧ lookupChain k chain = some e.value := by
  cases hf : findLoop k chain with
  | none =>
    left
    exact ⟨by simp [findItem, hc, hf], findLoop_eq_none.mp hf⟩
  | some q =>
    right
    obtain ⟨e, h1, h2, h3, _, _⟩ := findLoop_eq_some hf
    exact ⟨⟨t.hash k, q⟩, e, by simp [findItem, hc, hf], by simp [deref, hc, h1], h2, h3⟩

theorem applyOp_insertItem {w w1 : World} {k : Nat} {v r : Val}
    (h : insertItem w k v = some (r, w1)) : applyOp w (Op.insertItem k v) = some w1 := by
  simp [applyOp, h]

/-- C13, as the code has it: after `createHashTable(hash, n)` with `n >= 1` and `hash`
into `[0, n)` and any calls of `insertItem`, `removeItem` and `deleteItem`, for every
key `k` and value `v`, `insertItem(k, v)` followed by `removeItem(k)` return, the
`removeItem` returns `v`, and `getItem(k)` then returns `NULL`; that is the result
`getItem(k)` had before the `insertItem` exactly when that result was `NULL`. -/
theorem insertItem_removeItem_then_getItem (hashFunction : Nat → Nat) (n : Nat)
    (ops : List Op) (k : Nat) (v : Val) (hn : 1 ≤ n) (hh : ∀ x, hashFunction x < n) :
    ∃ w r w1 w2, ReachedBy hashFunction n ops w ∧ insertItem w k v = some (r, w1)
      ∧ removeItem w1 k = some (v, w2) ∧ getItem w2 k = some (NULL, w2)
      ∧ ((getItem w2 k).map Prod.fst = (getItem w k).map Prod.fst ↔
          getItem w k = some (NULL, w)) := by
  obtain ⟨w, hreach, hI⟩ := reached_total hn hh ops
  obtain ⟨chain, hc⟩ := hI.1.bucket k
  have hins := insertItem_eq v hc
  have hI1 : Inv (setBucket w (w.table.hash k) (putChain k v chain)).table :=
    Inv_applyOp hI (applyOp_insertItem hins)
  have hc1 : (setBucket w (w.table.hash k) (putChain k v chain)).table.buckets[
      (setBucket w (w.table.hash k) (putChain k v chain)).table.hash k]?
        = some (putChain k v chain) := bucket_set_same hc
  have hrem := removeItem_eq hc1
  rw [lookupChain_putChain_self] at hrem
  obtain ⟨hI2, hl2⟩ := lookupTable_after_erase hI1 k hc1
  have hget := getItem_lookup hI2.1 k
  rw [hl2] at hget
  refine ⟨w, _, _, _, hreach, hins, hrem, hget, ?_⟩
  rw [hget]
  constructor
  · intro h0
    rw [getItem_lookup hI.1 k] at h0 ⊢
    simp only [Option.map_some', Option.some.injEq] at h0
    rw [← h0]
    rfl
  · intro h0
    rw [h0]
    rfl

theorem insertItem_removeItem_then_getItem_witness :
    1 ≤ 3 ∧ (∀ x, testHash x < 3)
      ∧ ∃ w r w1 w2, ReachedBy testHash 3 [Op.insertItem 3 10, Op.insertItem 19 30] w
        ∧ insertItem w 7 20 = some (r, w1)
        ∧ removeItem w1 7 = some (20, w2) ∧ getItem w2 7 = some (NULL, w2)
        ∧ ((getItem w2 7).map Prod.fst = (getItem w 7).map Prod.fst ↔
            getItem w 7 = some (NULL, w)) :=
  ⟨by decide, testHash_lt,
    insertItem_removeItem_then_getItem testHash 3 [Op.insertItem 3 10, Op.insertItem 19 30]
      7 20 (by decide) testHash_lt⟩

/-- C13, as stated, fails: in the table reached by `insertItem` of the keys 3, 7 and 19
(7 holding the value 20), `getItem(7)` returns 20, and after `insertItem(7, 21)`
followed by `removeItem(7)` it returns `NULL`, not 20. -/
theorem insertItem_removeItem_roundtrip_counterexample :
    ReachedBy testHash 3 [Op.insertItem 3 10, Op.insertItem 7 20, Op.insertItem 19 30]
        sampleWorld
      ∧ ∃ r w1 r2 w2, insertItem sampleWorld 7 21 = some (r, w1)
        ∧ removeItem w1 7 = some (r2, w2)
        ∧ (getItem sampleWorld 7).map Prod.fst = some 20
        ∧ (getItem w2 7).map Prod.fst = some NULL
        ∧ (getItem w2 7).map Prod.fst ≠ (getItem sampleWorld 7).map Prod.fst := by
  refine ⟨sampleWorld_reached, _, _, _, _, rfl, rfl, ?_, ?_, ?_⟩ <;> decide

/-- C14: when bucket `hash k` exists and no entry of the table has the key `k`,
`getItem(k)` returns `NULL` and `insertItem(k, NULL)` returns `NULL`; after that
`insertItem` the chain of bucket `hash k` starts with an entry for `k`, and still
`getItem(k)` returns `NULL` and a further `insertItem(k, NULL)` returns `NULL`, the
same results as without an entry; the further `insertItem` leaves the state as it
is, so it adds no second entry. -/
theorem null_value_like_missing_key (w : World) (k : Nat)
    (hb : w.table.hash k < w.table.buckets.length) (hno : NoEntry w.table k) :
    ∃ chain w1, w.table.buckets[w.table.hash k]? = some chain
      ∧ getItem w k = some (NULL, w) ∧ insertItem w k NULL = some (NULL, w1)
      ∧ w1.table.buckets[w.table.hash k]? = some ({ key := k, value := NULL } :: chain)
      ∧ getItem w1 k = some (NULL, w1) ∧ insertItem w1 k NULL = some (NULL, w1) := by
  obtain ⟨chain, hc⟩ := bucket_of_lt hb
  have hl : lookupChain k chain = none := by
    rw [← lookupTable_of_bucket hc]
    exact lookupTable_of_NoEntry hno
  have hput : putChain k NULL chain = { key := k, value := NULL } :: chain := by
    simp [putChain, hl]
  have hput1 : putChain k NULL ({ key := k, value := NULL } :: chain)
      = { key := k, value := NULL } :: chain := by
    simp [putChain, lookupChain, replaceChain]
  have hc1 : (setBucket w (w.table.hash k) ({ key := k, value := NULL } :: chain)).table.buckets[
      (setBucket w (w.table.hash k) ({ key := k, value := NULL } :: chain)).table.hash k]?
        = some ({ key := k, value := NULL } :: chain) := bucket_set_same hc
  refine ⟨chain, setBucket w (w.table.hash k) ({ key := k, value := NULL } :: chain), hc,
    ?_, ?_, hc1, ?_, ?_⟩
  · rw [getItem_eq hc, hl]
    rfl
  · rw [insertItem_eq NULL hc, hl, hput]
    rfl
  · rw [getItem_eq hc1]
    simp [lookupChain]
  · rw [insertItem_eq NULL hc1, hput1, setBucket_same hc1]
    simp [lookupChain]

theorem null_value_like_missing_key_witness :
    sampleWorld.table.hash 4 < sampleWorld.table.buckets.length ∧ NoEntry sampleWorld.table 4
      ∧ ∃ chain w1, sampleWorld.table.buckets[sampleWorld.table.hash 4]? = some chain
        ∧ getItem sampleWorld 4 = some (NULL, sampleWorld)
        ∧ insertItem sampleWorld 4 NULL = some (NULL, w1)
        ∧ w1.table.buckets[sampleWorld.table.hash 4]?
            = some ({ key := 4, value := NULL } :: chain)
        ∧ getItem w1 4 = some (NULL, w1) ∧ insertItem w1 4 NULL = some (NULL, w1) :=
  ⟨by decide, by unfold NoEntry; decide,
    null_value_like_missing_key sampleWorld 4 (by decide) (by unfold NoEntry; decide)⟩

/-- C16: in a table with a hash into `[0, num_buckets)`, for every key `k`,
`removeItem(k)` and `deleteItem(k)` both return and leave the same table (every
chain, with keys, values and order); `removeItem` frees no value; when `findItem`
finds no entry `removeItem` returns `NULL` and `deleteItem` frees nothing, and when
it finds one, `removeItem` returns its value and `deleteItem` frees that value. -/
theorem deleteItem_same_table_as_removeItem (w : World) (k : Nat) (hR : InRange w.table) :
    ∃ r w1 w2, removeItem w k = some (r, w1) ∧ deleteItem w k = some w2
      ∧ w2.table = w1.table ∧ w1.freed = w.freed
      ∧ ((findItem w.table k = some none ∧ r = NULL ∧ w2.freed = w.freed)
        ∨ ∃ p e, findItem w.table k = some (some p) ∧ deref w.table p = some e
            ∧ r = e.value ∧ w2.freed = w.freed ++ [e.value]) := by
  obtain ⟨chain, hc⟩ := hR.bucket k
  refine ⟨_, _, _, removeItem_eq hc, deleteItem_eq hc, rfl, rfl, ?_⟩
  rcases findItem_cases hc with ⟨hf, hl⟩ | ⟨p, e, hf, hd, _, hl⟩
  · left
    exact ⟨hf, by simp [hl], by simp [hl]⟩
  · right
    exact ⟨p, e, hf, hd, by simp [hl], by simp [hl]⟩

theorem deleteItem_same_table_as_removeItem_witness :
    InRange sampleWorld.table
      ∧ ∃ r w1 w2, removeItem sampleWorld 7 = some (r, w1) ∧ deleteItem sampleWorld 7 = some w2
        ∧ w2.table = w1.table ∧ w1.freed = sampleWorld.freed
        ∧ ((findItem sampleWorld.table 7 = some none ∧ r = NULL
              ∧ w2.freed = sampleWorld.freed)
          ∨ ∃ p e, findItem sampleWorld.table 7 = some (some p)
              ∧ deref sampleWorld.table p = some e
              ∧ r = e.value ∧ w2.freed = sampleWorld.freed ++ [e.value]) :=
  ⟨sampleWorld_InRange, deleteItem_same_table_as_removeItem sampleWorld 7 sampleWorld_InRange⟩

theorem getItem_state {w w2 : World} {k : Nat} {r : Val} (h : getItem w k = some (r, w2)) :
    w2 = w := by
  unfold getItem at h
  split at h
  · simp at h
  · split at h
    · simp only [Option.some.injEq, Prod.mk.injEq] at h
      exact h.2.symm
    · simp at h
  · simp only [Option.some.injEq, Prod.mk.injEq] at h
    exact h.2.symm

theorem removeItem_freed {w w2 : World} {k : Nat} {r : Val}
    (h : removeItem w k = some (r, w2)) : w2.freed = w.freed := by
  cases hc : w.table.buckets[w.table.hash k]? with
  | none => simp [removeItem, hc] at h
  | some chain =>
    rw [removeItem_eq hc] at h
    simp only [Option.some.injEq, Prod.mk.injEq] at h
    rw [← h.2]
    rfl

theorem eraseChain_append {k : Nat} {v : Val} {before after : List HashTableEntry}
    (h : ∀ e ∈ before, e.key ≠ k) :
    eraseChain k (before ++ { key := k, value := v } :: after) = before ++ after := by
  induction before with
  | nil => simp [eraseChain]
  | cons e rest ih =>
    have he : e.key ≠ k := h e (List.mem_cons_self _ _)
    have hr : ∀ x ∈ rest, x.key ≠ k := fun x hx => h x (List.mem_cons_of_mem _ hx)
    simp [eraseChain, he, ih hr]

theorem destroyLoop_eq (thisNode : HashTableEntry) (next : List HashTableEntry) :
    destroyLoop thisNode next = (thisNode :: next).map (fun e => e.value) := by
  induction next generalizing thisNode with
  | nil => rfl
  | cons nextNode rest ih => simp [destroyLoop, ih nextNode]

theorem destroyBuckets_range' (t : HashTable) (m : Nat) :
    ∀ (s : Nat) (freed : List Val), s + m = t.buckets.length →
      destroyBuckets t (List.range' s m) freed
        = some (freed ++ allValues (t.buckets.drop s)) := by
  induction m with
  | zero =>
    intro s freed hs
    have : t.buckets.drop s = [] := List.drop_eq_nil_of_le (by omega)
    simp [destroyBuckets, this, allValues]
  | succ m ih =>
    intro s freed hs
    have hlt : s < t.buckets.length := by omega
    rw [List.range'_succ, List.drop_eq_getElem_cons hlt]
    simp only [destroyBuckets, List.getElem?_eq_getElem hlt]
    cases hb : t.buckets[s] with
    | nil =>
      simp only [allValues, List.map_nil, List.nil_append]
      exact ih (s + 1) freed (by omega)
    | cons thisNode nextNode =>
      simp only [allValues]
      rw [ih (s + 1) _ (by omega), destroyLoop_eq, List.append_assoc]

theorem allValues_of_empty {buckets : List (List HashTableEntry)}
    (h : ∀ chain ∈ buckets, chain = []) : allValues buckets = [] := by
  induction buckets with
  | nil => rfl
  | cons chain rest ih =>
    have hc : chain = [] := h chain (List.mem_cons_self _ _)
    subst hc
    simp [allValues, ih (fun c hm => h c (List.mem_cons_of_mem _ hm))]

/-- C17: `getItem` never changes the state: for every table and key, with or without
an entry, whenever `getItem(k)` returns, the state it leaves is the one it was given
(same chains with the same keys, values and order, same bucket count, same hash
function); and it does return when bucket `hash k` exists. -/
theorem getItem_never_mutates (w : World) (k : Nat) :
    (∀ r w2, getItem w k = some (r, w2) → w2 = w)
      ∧ (w.table.hash k < w.table.buckets.length → ∃ r, getItem w k = some (r, w)) := by
  constructor
  · intro r w2 h
    exact getItem_state h
  · intro hb
    obtain ⟨chain, hc⟩ := bucket_of_lt hb
    exact ⟨_, getItem_eq hc⟩

theorem getItem_never_mutates_witness :
    sampleWorld.table.hash 7 < sampleWorld.table.buckets.length
      ∧ sampleWorld.table.hash 4 < sampleWorld.table.buckets.length
      ∧ (∃ r, getItem sampleWorld 7 = some (r, sampleWorld))
      ∧ (∃ r, getItem sampleWorld 4 = some (r, sampleWorld))
      ∧ ∀ r w2, getItem sampleWorld 7 = some (r, w2) → w2 = sampleWorld :=
  ⟨by decide, by decide, (getItem_never_mutates sampleWorld 7).2 (by decide),
    (getItem_never_mutates sampleWorld 4).2 (by decide), (getItem_never_mutates sampleWorld 7).1⟩

/-- C18: with the freed values as part of the state, `removeItem(k)` frees no value,
for every table and key: whenever it returns, the log of freed values is as before.
And when the chain of bucket `hash k` is `before`, the entry `(k, v)`, `after`, with
no entry of key `k` in `before`, `removeItem(k)` returns `v` and frees nothing, while
`deleteItem(k)` frees exactly the value `v` of that entry and unlinks exactly that
entry, the chain becoming `before` followed by `after`. -/
theorem values_freed_on_removal (w : World) (k : Nat) :
    (∀ r w1, removeItem w k = some (r, w1) → w1.freed = w.freed)
      ∧ ∀ before after v,
          w.table.buckets[w.table.hash k]? = some (before ++ { key := k, value := v } :: after) →
          (∀ e ∈ before, e.key ≠ k) →
          ∃ w1 w2, removeItem w k = some (v, w1) ∧ w1.freed = w.freed
            ∧ deleteItem w k = some w2 ∧ w2.freed = w.freed ++ [v]
            ∧ w2.table.buckets = w.table.buckets.set (w.table.hash k) (before ++ after) := by
  constructor
  · intro r w1 h
    exact removeItem_freed h
  · intro before after v hc hb
    have hrem := removeItem_eq hc
    rw [lookupChain_append hb] at hrem
    refine ⟨_, _, hrem, rfl, deleteItem_eq hc, ?_, ?_⟩
    · simp [lookupChain_append hb]
    · simp [setBucket, eraseChain_append hb]

theorem values_freed_on_removal_witness :
    sampleWorld.table.buckets[sampleWorld.table.hash 7]?
        = some ([⟨19, 30⟩] ++ { key := 7, value := 20 } :: [])
      ∧ (∀ e ∈ [(⟨19, 30⟩ : HashTableEntry)], e.key ≠ 7)
      ∧ ∃ w1 w2, removeItem sampleWorld 7 = some (20, w1) ∧ w1.freed = sampleWorld.freed
          ∧ deleteItem sampleWorld 7 = some w2 ∧ w2.freed = sampleWorld.freed ++ [20]
          ∧ w2.table.buckets
              = sampleWorld.table.buckets.set (sampleWorld.table.hash 7) ([⟨19, 30⟩] ++ []) :=
  ⟨rfl, by decide, (values_freed_on_removal sampleWorld 7).2 [⟨19, 30⟩] [] 20 rfl (by decide)⟩

/-- C19: on a table whose array has `num_buckets` slots, `destroyHashTable` returns and
frees the value of every entry, one `free` per entry: the log of freed values grows
by the values of all entries, bucket by bucket and head to tail within a bucket; on
a table whose buckets are all empty it frees nothing. -/
theorem destroyHashTable_frees_all_values (w : World)
    (hlen : w.table.buckets.length = w.table.num_buckets) :
    destroyHashTable w = some (w.freed ++ allValues w.table.buckets)
      ∧ (allValues w.table.buckets).length = (w.table.buckets.map List.length).sum
      ∧ ((∀ chain ∈ w.table.buckets, chain = []) → destroyHashTable w = some w.freed) := by
  have hmain : destroyHashTable w = some (w.freed ++ allValues w.table.buckets) := by
    unfold destroyHashTable
    rw [List.range_eq_range', destroyBuckets_range' w.table w.table.num_buckets 0 w.freed
      (by omega)]
    simp
  refine ⟨hmain, ?_, ?_⟩
  · generalize w.table.buckets = bs
    induction bs with
    | nil => rfl
    | cons chain rest ih => simp [allValues, ih]
  · intro hall
    rw [hmain, allValues_of_empty hall]
    simp

theorem destroyHashTable_frees_all_values_witness :
    sampleWorld.table.buckets.length = sampleWorld.table.num_buckets
      ∧ destroyHashTable sampleWorld = some [10, 30, 20]
      ∧ destroyHashTable sampleWorld
          = some (sampleWorld.freed ++ allValues sampleWorld.table.buckets)
      ∧ destroyHashTable ⟨⟨[[], [], []], testHash, 3⟩, [5]⟩ = some [5] :=
  ⟨rfl, by decide, (destroyHashTable_frees_all_values sampleWorld rfl).1,
    (destroyHashTable_frees_all_values ⟨⟨[[], [], []], testHash, 3⟩, [5]⟩ rfl).2.2
      (by decide)⟩

/-- C20: in a table with a hash into `[0, num_buckets)`, for a key `k` that no entry of
the table has and any value `v`, `insertItem(k, v)` returns `NULL`, the chain of
bucket `hash k` becomes the new entry `(k, v)` followed by the chain it was, in the
same order, and every other bucket is as before. -/
theorem insertItem_new_at_head (w : World) (k : Nat) (v : Val)
    (hR : InRange w.table) (hno : NoEntry w.table k) :
    ∃ chain w2, w.table.buckets[w.table.hash k]? = some chain
      ∧ insertItem w k v = some (NULL, w2)
      ∧ w2.table.buckets[w.table.hash k]? = some (createHashTableEntry k v :: chain)
      ∧ (∀ i, i ≠ w.table.hash k → w2.table.buckets[i]? = w.table.buckets[i]?)
      ∧ w2.table.buckets.length = w.table.buckets.length := by
  obtain ⟨chain, hc⟩ := hR.bucket k
  have hl : lookupChain k chain = none := by
    rw [← lookupTable_of_bucket hc]
    exact lookupTable_of_NoEntry hno
  have hput : putChain k v chain = createHashTableEntry k v :: chain := by
    simp [putChain, hl, createHashTableEntry]
  refine ⟨chain, setBucket w (w.table.hash k) (createHashTableEntry k v :: chain), hc, ?_,
    bucket_set_same hc, ?_, ?_⟩
  · rw [insertItem_eq v hc, hl, hput]
    rfl
  · intro i hi
    exact bucket_set_other _ (fun h => hi h.symm)
  · simp [setBucket]

theorem insertItem_new_at_head_witness :
    InRange sampleWorld.table ∧ NoEntry sampleWorld.table 4
      ∧ ∃ chain w2, sampleWorld.table.buckets[sampleWorld.table.hash 4]? = some chain
        ∧ insertItem sampleWorld 4 40 = some (NULL, w2)
        ∧ w2.table.buckets[sampleWorld.table.hash 4]?
            = some (createHashTableEntry 4 40 :: chain)
        ∧ (∀ i, i ≠ sampleWorld.table.hash 4 →
            w2.table.buckets[i]? = sampleWorld.table.buckets[i]?)
        ∧ w2.table.buckets.length = sampleWorld.table.buckets.length :=
  ⟨sampleWorld_InRange, by unfold NoEntry; decide,
    insertItem_new_at_head sampleWorld 4 40 sampleWorld_InRange (by unfold NoEntry; decide)⟩

/-! ## Insertion order -/

theorem expectedChain_cons (hashFunction : Nat → Nat) (i : Nat) (p : Nat × Val)
    (items : List (Nat × Val)) :
    expectedChain hashFunction i (p :: items)
      = expectedChain hashFunction i items
          ++ (if hashFunction p.1 = i then [entryOf p] else []) := by
  unfold expectedChain
  by_cases h : hashFunction p.1 = i
  · simp [List.filter_cons, h]
  · simp [List.filter_cons, h]

theorem chainKeys_expectedChain (hashFunction : Nat → Nat) (i : Nat)
    (items : List (Nat × Val)) :
    chainKeys (expectedChain hashFunction i items)
      = ((items.map Prod.fst).filter (fun k => decide (hashFunction k = i))).reverse := by
  induction items with
  | nil => rfl
  | cons p rest ih =>
    rw [expectedChain_cons]
    by_cases h : hashFunction p.1 = i
    · simp only [chainKeys, List.map_append] at ih ⊢
      simp [List.filter_cons, h, ih, entryOf]
    · simp only [chainKeys, List.map_append] at ih ⊢
      simp [List.filter_cons, h, ih]

theorem run_inserts {w : World} (hR : InRange w.table) (items : List (Nat × Val))
    (hnd : (items.map Prod.fst).Nodup)
    (hnew : ∀ p ∈ items, lookupTable w.table p.1 = none) :
    ∃ w2, run w (items.map insertOp) = some w2
      ∧ ∀ i chain, w.table.buckets[i]? = some chain →
          w2.table.buckets[i]? = some (expectedChain w.table.hash i items ++ chain) := by
  induction items generalizing w with
  | nil => exact ⟨w, rfl, fun i chain hc => by simpa [expectedChain] using hc⟩
  | cons p rest ih =>
    obtain ⟨c0, hc0⟩ := hR.bucket p.1
    have hl0 : lookupChain p.1 c0 = none := by
      rw [← lookupTable_of_bucket hc0]
      exact hnew p (List.mem_cons_self _ _)
    have hput : putChain p.1 p.2 c0 = entryOf p :: c0 := by
      simp [putChain, hl0, entryOf]
    have hins := insertItem_eq p.2 hc0
    rw [hput] at hins
    have happ : applyOp w (insertOp p) = some (setBucket w (w.table.hash p.1) (entryOf p :: c0)) :=
      applyOp_insertItem hins
    simp only [List.map_cons, List.nodup_cons] at hnd
    have hR1 : InRange (setBucket w (w.table.hash p.1) (entryOf p :: c0)).table :=
      InRange_setBucket hR _ _
    have hnew1 : ∀ q ∈ rest,
        lookupTable (setBucket w (w.table.hash p.1) (entryOf p :: c0)).table q.1 = none := by
      intro q hq
      have hne : (insertOp p).key ≠ q.1 := by
        intro heq
        apply hnd.1
        have : p.1 = q.1 := heq
        rw [this]
        exact List.mem_map_of_mem _ hq
      rw [lookupTable_applyOp_ne hR hne happ]
      exact hnew q (List.mem_cons_of_mem _ hq)
    obtain ⟨w2, hrun, hch⟩ := ih hR1 hnd.2 hnew1
    refine ⟨w2, by simp only [List.map_cons, run, happ]; exact hrun, ?_⟩
    intro i chain hc
    rw [expectedChain_cons]
    by_cases hi : w.table.hash p.1 = i
    · subst hi
      have := hch _ _ (@bucket_set_same w.table (w.table.hash p.1) c0 (entryOf p :: c0) hc0)
      rw [hc0] at hc
      cases hc
      simpa [setBucket] using this
    · have hb : (setBucket w (w.table.hash p.1) (entryOf p :: c0)).table.buckets[i]?
          = some chain := by
        simp only [setBucket]
        rw [bucket_set_other _ hi]
        exact hc
      have := hch i chain hb
      simpa [setBucket, hi] using this

/-- C21: inserting pairwise distinct keys, in order, with `insertItem` into the table
made by `createHashTable(hash, n)` (`n >= 1`, `hash` into `[0, n)`, no removals)
returns each time, and then the chain of every bucket `i` lists exactly the inserted
keys with `hash(key) = i`, the most recently inserted first, each with its value. -/
theorem chains_in_reverse_insertion_order (hashFunction : Nat → Nat) (n : Nat)
    (items : List (Nat × Val)) (hn : 1 ≤ n) (hh : ∀ x, hashFunction x < n)
    (hnd : (items.map Prod.fst).Nodup) :
    ∃ w, ReachedBy hashFunction n (items.map insertOp) w
      ∧ ∀ i, i < n → ∃ chain, w.table.buckets[i]? = some chain
          ∧ chainKeys chain
              = ((items.map Prod.fst).filter (fun k => decide (hashFunction k = i))).reverse
          ∧ chain = expectedChain hashFunction i items := by
  have hI0 := Inv_fresh hn hh
  have hnew : ∀ p ∈ items, lookupTable
      (World.mk ⟨List.replicate n [], hashFunction, n⟩ []).table p.1 = none := by
    intro p _
    obtain ⟨chain, hc⟩ := hI0.1.bucket p.1
    have hmem : chain ∈ List.replicate n ([] : List HashTableEntry) := List.getElem?_mem hc
    rw [lookupTable_of_bucket hc, (List.mem_replicate.mp hmem).2]
    rfl
  obtain ⟨w, hrun, hch⟩ :=
    @run_inserts ⟨⟨List.replicate n [], hashFunction, n⟩, []⟩ hI0.1 items hnd hnew
  refine ⟨w, ⟨hn, hh, by rw [fresh_eq hn, Option.some_bind]; exact hrun⟩, ?_⟩
  intro i hi
  have h0 : (World.mk ⟨List.replicate n [], hashFunction, n⟩ []).table.buckets[i]?
      = some [] := by
    simp [hi]
  have := hch i [] h0
  rw [List.append_nil] at this
  exact ⟨_, this, chainKeys_expectedChain hashFunction i items, rfl⟩

theorem chains_in_reverse_insertion_order_witness :
    1 ≤ 3 ∧ (∀ x, testHash x < 3) ∧ ([(3, 10), (7, 20), (19, 30)].map Prod.fst).Nodup
      ∧ (ReachedBy testHash 3 ([(3, 10), (7, 20), (19, 30)].map insertOp) sampleWorld
          ∧ sampleWorld.table.buckets.map chainKeys = [[3], [19, 7], []])
      ∧ ∃ w, ReachedBy testHash 3 ([(3, 10), (7, 20), (19, 30)].map insertOp) w
          ∧ ∀ i, i < 3 → ∃ chain, w.table.buckets[i]? = some chain
            ∧ chainKeys chain
                = (([(3, 10), (7, 20), (19, 30)].map Prod.fst).filter
                    (fun k => decide (testHash k = i))).reverse
            ∧ chain = expectedChain testHash i [(3, 10), (7, 20), (19, 30)] :=
  ⟨by decide, testHash_lt, by decide, ⟨⟨by decide, testHash_lt, rfl⟩, by decide⟩,
    chains_in_reverse_insertion_order testHash 3 [(3, 10), (7, 20), (19, 30)]
      (by decide) testHash_lt (by decide)⟩

/-! ## Overwriting, erasing and searching in a chain -/

theorem replaceChain_append {k : Nat} {old : Val} (v : Val) {before after : List HashTableEntry}
    (h : ∀ e ∈ before, e.key ≠ k) :
    replaceChain k v (before ++ { key := k, value := old } :: after)
      = before ++ { key := k, value := v } :: after := by
  induction before with
  | nil => simp [replaceChain]
  | cons e rest ih =>
    have he : e.key ≠ k := h e (List.mem_cons_self _ _)
    have hr : ∀ x ∈ rest, x.key ≠ k := fun x hx => h x (List.mem_cons_of_mem _ hx)
    simp [replaceChain, he, ih hr]

theorem map_set_same {α β : Type} (f : α → β) {l : List α} {i : Nat} {a b : α}
    (h : l[i]? = some a) (hf : f b = f a) : (l.set i b).map f = l.map f := by
  induction l generalizing i with
  | nil => rfl
  | cons x xs ih =>
    cases i with
    | zero =>
      simp at h
      simp [h, hf]
    | succ i =>
      simp at h
      simp [ih h]

theorem eraseChain_eq_eraseP (k : Nat) (chain : List HashTableEntry) :
    eraseChain k chain = chain.eraseP (fun e => decide (e.key = k)) := by
  induction chain with
  | nil => rfl
  | cons e rest ih =>
    by_cases h : e.key = k
    · simp [eraseChain, h]
    · simp [eraseChain, h, ih]

theorem lookupChain_eq_find (k : Nat) (chain : List HashTableEntry) :
    lookupChain k chain
      = (chain.find? (fun e => decide (e.key = k))).map (fun e => e.value) := by
  induction chain with
  | nil => rfl
  | cons e rest ih =>
    by_cases h : e.key = k
    · simp [lookupChain, List.find?_cons, h]
    · simp [lookupChain, List.find?_cons, h, ih]

/-- C22: when the chain of bucket `hash k` is `before`, the entry `(k, old)`, `after`,
with no entry of key `k` in `before`, `insertItem(k, v)` returns `old` and reuses
that entry: the chain becomes `before`, `(k, v)`, `after`, so only the value of the
first entry with key `k` changes, to `v`; the keys, their order and the number of
entries of every chain are as before, and nothing is freed. -/
theorem insertItem_overwrites_in_place (w : World) (k : Nat) (old v : Val)
    (before after : List HashTableEntry)
    (hc : w.table.buckets[w.table.hash k]?
      = some (before ++ { key := k, value := old } :: after))
    (hb : ∀ e ∈ before, e.key ≠ k) :
    ∃ w2, insertItem w k v = some (old, w2)
      ∧ w2.table.buckets
          = w.table.buckets.set (w.table.hash k) (before ++ { key := k, value := v } :: after)
      ∧ w2.table.buckets.map chainKeys = w.table.buckets.map chainKeys
      ∧ w2.table.buckets.map List.length = w.table.buckets.map List.length
      ∧ w2.freed = w.freed := by
  have hl : lookupChain k (before ++ { key := k, value := old } :: after) = some old :=
    lookupChain_append hb
  have hput : putChain k v (before ++ { key := k, value := old } :: after)
      = before ++ { key := k, value := v } :: after := by
    simp [putChain, hl, replaceChain_append v hb]
  have hins := insertItem_eq v hc
  rw [hl, hput] at hins
  refine ⟨_, hins, rfl, ?_, ?_, rfl⟩
  · exact map_set_same chainKeys hc (by simp [chainKeys])
  · exact map_set_same List.length hc (by simp)

theorem insertItem_overwrites_in_place_witness :
    sampleWorld.table.buckets[sampleWorld.table.hash 7]?
        = some ([⟨19, 30⟩] ++ { key := 7, value := 20 } :: [])
      ∧ (∀ e ∈ [(⟨19, 30⟩ : HashTableEntry)], e.key ≠ 7)
      ∧ ∃ w2, insertItem sampleWorld 7 21 = some (20, w2)
        ∧ w2.table.buckets
            = sampleWorld.table.buckets.set (sampleWorld.table.hash 7)
                ([⟨19, 30⟩] ++ { key := 7, value := 21 } :: [])
        ∧ w2.table.buckets.map chainKeys = sampleWorld.table.buckets.map chainKeys
        ∧ w2.table.buckets.map List.length = sampleWorld.table.buckets.map List.length
        ∧ w2.freed = sampleWorld.freed :=
  ⟨rfl, by decide,
    insertItem_overwrites_in_place sampleWorld 7 20 21 [⟨19, 30⟩] [] rfl (by decide)⟩

/-- C23: in a table with a hash into `[0, num_buckets)`, for every key `k`,
`removeItem(k)` returns; the chain of bucket `hash k` becomes the chain it was
without its first entry of key `k` (the list function `List.eraseP`, which leaves
a chain without such an entry as it is and keeps the other entries and their
order); every other bucket is as before; and the value returned is the value of
that first entry (`List.find?`), or `NULL` when there is none. The head case and the
loop of `removeItem` together are this one erase. -/
theorem removeItem_erases_first_match (w : World) (k : Nat) (hR : InRange w.table) :
    ∃ chain r w2, w.table.buckets[w.table.hash k]? = some chain
      ∧ removeItem w k = some (r, w2)
      ∧ w2.table.buckets[w.table.hash k]?
          = some (chain.eraseP (fun e => decide (e.key = k)))
      ∧ r = ((chain.find? (fun e => decide (e.key = k))).map (fun e => e.value)).getD NULL
      ∧ ∀ i, i ≠ w.table.hash k → w2.table.buckets[i]? = w.table.buckets[i]? := by
  obtain ⟨chain, hc⟩ := hR.bucket k
  refine ⟨chain, _, _, hc, removeItem_eq hc, ?_, ?_, ?_⟩
  · rw [← eraseChain_eq_eraseP]
    exact bucket_set_same hc
  · rw [lookupChain_eq_find]
  · intro i hi
    exact bucket_set_other _ (fun h => hi h.symm)

theorem removeItem_erases_first_match_witness :
    InRange sampleWorld.table
      ∧ ∃ chain r w2, sampleWorld.table.buckets[sampleWorld.table.hash 7]? = some chain
        ∧ removeItem sampleWorld 7 = some (r, w2)
        ∧ w2.table.buckets[sampleWorld.table.hash 7]?
            = some (chain.eraseP (fun e => decide (e.key = 7)))
        ∧ r = ((chain.find? (fun e => decide (e.key = 7))).map (fun e => e.value)).getD NULL
        ∧ ∀ i, i ≠ sampleWorld.table.hash 7 →
            w2.table.buckets[i]? = sampleWorld.table.buckets[i]? :=
  ⟨sampleWorld_InRange, removeItem_erases_first_match sampleWorld 7 sampleWorld_InRange⟩

/-- C24: for every chain of bucket `hash k`, one with several entries of the same key
included, `findItem(k)` returns `NULL` exactly when no entry of the chain has the key
`k`, and then `getItem(k)` returns `NULL`; otherwise `findItem(k)` returns the entry
with key `k` nearest to the head (no entry before it has the key `k`), and
`getItem(k)` returns the value of that entry. -/
theorem findItem_first_match (w : World) (k : Nat) (chain : List HashTableEntry)
    (hc : w.table.buckets[w.table.hash k]? = some chain) :
    (findItem w.table k = some none ↔ ∀ e ∈ chain, e.key ≠ k)
      ∧ ((findItem w.table k = some none ∧ getItem w k = some (NULL, w))
        ∨ ∃ pos e, findItem w.table k = some (some { bucket := w.table.hash k, pos := pos })
            ∧ chain[pos]? = some e ∧ e.key = k
            ∧ (∀ j e2, j < pos → chain[j]? = some e2 → e2.key ≠ k)
            ∧ getItem w k = some (e.value, w)) := by
  cases hf : findLoop k chain with
  | none =>
    have hfi : findItem w.table k = some none := by simp [findItem, hc, hf]
    have hl := findLoop_eq_none.mp hf
    refine ⟨⟨fun _ => lookupChain_eq_none.mp hl, fun _ => hfi⟩, Or.inl ⟨hfi, ?_⟩⟩
    rw [getItem_eq hc, hl]
    rfl
  | some q =>
    obtain ⟨e, h1, h2, h3, h4, _⟩ := findLoop_eq_some hf
    have hfi : findItem w.table k = some (some { bucket := w.table.hash k, pos := q }) := by
      simp [findItem, hc, hf]
    refine ⟨⟨fun h => ?_, fun h => ?_⟩, Or.inr ⟨q, e, hfi, h1, h2, h4, ?_⟩⟩
    · rw [hfi] at h
      simp at h
    · exact absurd h2 (h e (List.getElem?_mem h1))
    · rw [getItem_eq hc, h3]
      rfl

theorem findItem_first_match_witness :
    (World.mk ⟨[[], [⟨7, 20⟩, ⟨4, 40⟩, ⟨4, 41⟩], []], testHash, 3⟩ []).table.buckets[
        testHash 4]? = some [⟨7, 20⟩, ⟨4, 40⟩, ⟨4, 41⟩]
      ∧ findItem (HashTable.mk [[], [⟨7, 20⟩, ⟨4, 40⟩, ⟨4, 41⟩], []] testHash 3) 4
          = some (some { bucket := 1, pos := 1 })
      ∧ (getItem ⟨⟨[[], [⟨7, 20⟩, ⟨4, 40⟩, ⟨4, 41⟩], []], testHash, 3⟩, []⟩ 4).map Prod.fst
          = some 40
      ∧ (findItem (HashTable.mk [[], [⟨7, 20⟩, ⟨4, 40⟩, ⟨4, 41⟩], []] testHash 3) 4 = some none
          ↔ ∀ e ∈ [(⟨7, 20⟩ : HashTableEntry), ⟨4, 40⟩, ⟨4, 41⟩], e.key ≠ 4) :=
  ⟨rfl, by decide, by decide,
    (findItem_first_match ⟨⟨[[], [⟨7, 20⟩, ⟨4, 40⟩, ⟨4, 41⟩], []], testHash, 3⟩, []⟩ 4
      [⟨7, 20⟩, ⟨4, 40⟩, ⟨4, 41⟩] rfl).1⟩

/-! ## The bucket index, the round trip and the finite map -/

theorem setBucket_twice (w : World) (i : Nat) (c1 c2 : List HashTableEntry) :
    setBucket (setBucket w i c1) i c2 = setBucket w i c2 := by
  simp [setBucket, List.set_set]

theorem none_of_length_le {w : World} {k : Nat}
    (h : w.table.buckets.length ≤ w.table.hash k) :
    w.table.buckets[w.table.hash k]? = none :=
  List.getElem?_eq_none h

theorem lookupTable_fresh (hashFunction : Nat → Nat) (n k : Nat) :
    lookupTable ({ buckets := List.replicate n [], hash := hashFunction, num_buckets := n }
      : HashTable) k = none := by
  unfold lookupTable
  cases hc : (List.replicate n ([] : List HashTableEntry))[hashFunction k]? with
  | none => simp [hc]
  | some chain =>
    have hmem : chain ∈ List.replicate n ([] : List HashTableEntry) := List.getElem?_mem hc
    simp [hc, (List.mem_replicate.mp hmem).2, lookupChain]

/-- C25: after `createHashTable(hash, n)` with `n >= 1` and `hash(k) < n` for every key,
and any calls of `insertItem`, `removeItem` and `deleteItem`, the array still has
`num_buckets` slots and, for every key `k`, the index `hash(k)` the four functions
use is below `num_buckets`; so `insertItem`, `getItem`, `removeItem` and
`deleteItem` all return, never taking the out-of-range branch of the bucket access. -/
theorem bucket_index_in_range (hashFunction : Nat → Nat) (n : Nat) (ops : List Op)
    (k : Nat) (v : Val) (hn : 1 ≤ n) (hh : ∀ x, hashFunction x < n) :
    ∃ w, ReachedBy hashFunction n ops w
      ∧ w.table.buckets.length = w.table.num_buckets
      ∧ w.table.hash k < w.table.num_buckets
      ∧ (insertItem w k v).isSome ∧ (getItem w k).isSome
      ∧ (removeItem w k).isSome ∧ (deleteItem w k).isSome := by
  obtain ⟨w, hreach, hI⟩ := reached_total hn hh ops
  obtain ⟨chain, hc⟩ := hI.1.bucket k
  refine ⟨w, hreach, hI.1.1, hI.1.2.2 k, ?_, ?_, ?_, ?_⟩
  · rw [insertItem_eq v hc]
    rfl
  · rw [getItem_eq hc]
    rfl
  · rw [removeItem_eq hc]
    rfl
  · rw [deleteItem_eq hc]
    rfl

theorem bucket_index_in_range_witness :
    1 ≤ 3 ∧ (∀ x, testHash x < 3)
      ∧ ∃ w, ReachedBy testHash 3 [Op.insertItem 3 10, Op.insertItem 7 20, Op.deleteItem 3] w
        ∧ w.table.buckets.length = w.table.num_buckets
        ∧ w.table.hash 10 < w.table.num_buckets
        ∧ (insertItem w 10 50).isSome ∧ (getItem w 10).isSome
        ∧ (removeItem w 10).isSome ∧ (deleteItem w 10).isSome :=
  ⟨by decide, testHash_lt,
    bucket_index_in_range testHash 3 [Op.insertItem 3 10, Op.insertItem 7 20, Op.deleteItem 3]
      10 50 (by decide) testHash_lt⟩

/-- C26, as the code has it: when `hash(k)` is not below the number of slots of the
bucket array, `insertItem`, `getItem`, `removeItem` and `deleteItem` on `k` each
access `buckets[hash(k)]` outside the array, with nothing to check or clamp the
index: none of them returns a defined result. -/
theorem out_of_range_hash_is_undefined (w : World) (k : Nat) (v : Val)
    (h : w.table.buckets.length ≤ w.table.hash k) :
    insertItem w k v = none ∧ getItem w k = none ∧ removeItem w k = none
      ∧ deleteItem w k = none := by
  have hb := none_of_length_le h
  refine ⟨?_, ?_, ?_, ?_⟩
  · simp [insertItem, findItem, hb]
  · simp [getItem, findItem, hb]
  · simp [removeItem, hb]
  · simp [deleteItem, hb]

theorem out_of_range_hash_is_undefined_witness :
    (World.mk ⟨[[], [], []], id, 3⟩ []).table.buckets.length
        ≤ (World.mk ⟨[[], [], []], id, 3⟩ []).table.hash 5
      ∧ insertItem ⟨⟨[[], [], []], id, 3⟩, []⟩ 5 50 = none
      ∧ getItem ⟨⟨[[], [], []], id, 3⟩, []⟩ 5 = none
      ∧ removeItem ⟨⟨[[], [], []], id, 3⟩, []⟩ 5 = none
      ∧ deleteItem ⟨⟨[[], [], []], id, 3⟩, []⟩ 5 = none :=
  ⟨by decide, out_of_range_hash_is_undefined ⟨⟨[[], [], []], id, 3⟩, []⟩ 5 50 (by decide)⟩

/-- C26, as stated, fails: on the table made by `createHashTable` with 3 buckets and
the hash `key ↦ key`, the key 5 has `hash(5) = 5 >= 3`, and `insertItem`, `getItem`,
`removeItem` and `deleteItem` on 5 all access `buckets[5]` outside the array instead
of completing. -/
theorem out_of_range_hash_counterexample :
    (fresh id 3).isSome = true ∧ 3 ≤ id 5
      ∧ ((fresh id 3).bind (fun w => insertItem w 5 50)).isSome = false
      ∧ ((fresh id 3).bind (fun w => getItem w 5)).isSome = false
      ∧ ((fresh id 3).bind (fun w => removeItem w 5)).isSome = false
      ∧ ((fresh id 3).bind (fun w => deleteItem w 5)).isSome = false := by
  refine ⟨?_, ?_, ?_, ?_, ?_, ?_⟩ <;> decide

/-- C27: in a table with a hash into `[0, num_buckets)`, for a key `k` that no entry of
the table has and any value `v`, `insertItem(k, v)` returns `NULL`, the following
`removeItem(k)` returns `v`, and the state after both is the one before them: every
chain has the same entries in the same order. -/
theorem insertItem_removeItem_restores_table (w : World) (k : Nat) (v : Val)
    (hR : InRange w.table) (hno : NoEntry w.table k) :
    ∃ w1, insertItem w k v = some (NULL, w1) ∧ removeItem w1 k = some (v, w) := by
  obtain ⟨chain, hc⟩ := hR.bucket k
  have hl : lookupChain k chain = none := by
    rw [← lookupTable_of_bucket hc]
    exact lookupTable_of_NoEntry hno
  have hput : putChain k v chain = { key := k, value := v } :: chain := by
    simp [putChain, hl]
  have hc1 : (setBucket w (w.table.hash k) ({ key := k, value := v } :: chain)).table.buckets[
      (setBucket w (w.table.hash k) ({ key := k, value := v } :: chain)).table.hash k]?
        = some ({ key := k, value := v } :: chain) := bucket_set_same hc
  refine ⟨setBucket w (w.table.hash k) ({ key := k, value := v } :: chain), ?_, ?_⟩
  · rw [insertItem_eq v hc, hl, hput]
    rfl
  · rw [removeItem_eq hc1]
    have he : eraseChain k ({ key := k, value := v } :: chain) = chain := by
      simp [eraseChain]
    have hw : setBucket (setBucket w (w.table.hash k) ({ key := k, value := v } :: chain))
        (w.table.hash k) chain = w := by
      rw [setBucket_twice, setBucket_same hc]
    rw [he]
    simp only [lookupChain, if_true, Option.getD_some]
    exact congrArg (fun x => some (v, x)) hw

theorem insertItem_removeItem_restores_table_witness :
    InRange sampleWorld.table ∧ NoEntry sampleWorld.table 4
      ∧ ∃ w1, insertItem sampleWorld 4 40 = some (NULL, w1)
        ∧ removeItem w1 4 = some (40, sampleWorld) :=
  ⟨sampleWorld_InRange, by unfold NoEntry; decide,
    insertItem_removeItem_restores_table sampleWorld 4 40 sampleWorld_InRange
      (by unfold NoEntry; decide)⟩

theorem Sim_fresh {hashFunction : Nat → Nat} {n : Nat} (hn : 1 ≤ n)
    (hh : ∀ x, hashFunction x < n) :
    Sim ⟨⟨List.replicate n [], hashFunction, n⟩, []⟩ absEmpty :=
  ⟨Inv_fresh hn hh, fun k => lookupTable_fresh hashFunction n k⟩

theorem Sim_after_erase {w w2 : World} {m : AbsMap} (hs : Sim w m) {k : Nat} {op : Op}
    (hkey : op.key = k) {chain : List HashTableEntry}
    (hc : w.table.buckets[w.table.hash k]? = some chain)
    (happ : applyOp w op = some w2)
    (htab : w2.table = (setBucket w (w.table.hash k) (eraseChain k chain)).table) :
    Sim w2 (absUnbind m k) := by
  refine ⟨Inv_applyOp hs.1 happ, ?_⟩
  intro x
  by_cases hx : x = k
  · subst hx
    rw [htab, (lookupTable_after_erase hs.1 x hc).2]
    simp [absUnbind]
  · have hne : op.key ≠ x := by
      rw [hkey]
      exact fun h => hx h.symm
    rw [lookupTable_applyOp_ne hs.1.1 hne happ, hs.2 x]
    simp [absUnbind, hx]

theorem Sim_step {w : World} {m : AbsMap} (hs : Sim w m) (c : Call) :
    ∃ w2, callStep w c = some ((absStep m c).1, w2) ∧ Sim w2 (absStep m c).2 := by
  cases c with
  | insertItem k v =>
    obtain ⟨chain, hc⟩ := hs.1.1.bucket k
    have hins := insertItem_eq v hc
    have happ := applyOp_insertItem hins
    have hm : lookupChain k chain = m k := by rw [← lookupTable_of_bucket hc, hs.2 k]
    refine ⟨_, by simp [callStep, hins, absStep, hm], Inv_applyOp hs.1 happ, ?_⟩
    intro x
    by_cases hx : x = k
    · subst hx
      rw [lookupTable_insertItem hs.1.1 happ]
      simp [absStep, absBind]
    · have hne : (Op.insertItem k v).key ≠ x := fun h => hx h.symm
      rw [lookupTable_applyOp_ne hs.1.1 hne happ, hs.2 x]
      simp [absStep, absBind, hx]
  | getItem k =>
    refine ⟨w, ?_, hs⟩
    simp [callStep, getItem_lookup hs.1.1 k, absStep, hs.2 k]
  | removeItem k =>
    obtain ⟨chain, hc⟩ := hs.1.1.bucket k
    have hrem := removeItem_eq hc
    have happ : applyOp w (Op.removeItem k)
        = some (setBucket w (w.table.hash k) (eraseChain k chain)) := by
      simp [applyOp, hrem]
    have hm : lookupChain k chain = m k := by rw [← lookupTable_of_bucket hc, hs.2 k]
    exact ⟨_, by simp [callStep, hrem, absStep, hm],
      Sim_after_erase hs (show (Op.removeItem k).key = k from rfl) hc happ rfl⟩
  | deleteItem k =>
    obtain ⟨chain, hc⟩ := hs.1.1.bucket k
    have hdel := deleteItem_eq hc
    have happ : applyOp w (Op.deleteItem k)
        = some { table := (setBucket w (w.table.hash k) (eraseChain k chain)).table,
                 freed := w.freed ++ (lookupChain k chain).toList } := by
      simp [applyOp, hdel]
    exact ⟨_, by simp [callStep, hdel, absStep],
      Sim_after_erase hs (show (Op.deleteItem k).key = k from rfl) hc happ rfl⟩

theorem Sim_run {w : World} {m : AbsMap} (hs : Sim w m) (calls : List Call) :
    ∃ w2, runCalls w calls = some ((absRun m calls).1, w2) ∧ Sim w2 (absRun m calls).2 := by
  induction calls generalizing w m with
  | nil => exact ⟨w, rfl, hs⟩
  | cons c cs ih =>
    obtain ⟨w1, h1, hs1⟩ := Sim_step hs c
    obtain ⟨w2, h2, hs2⟩ := ih hs1
    exact ⟨w2, by simp [runCalls, h1, h2, absRun], hs2⟩

/-- C28: the table refines a finite map. For every sequence of `insertItem`, `getItem`,
`removeItem` and `deleteItem` calls on the table made by `createHashTable(hash, n)`
with `n >= 1` and `hash` into `[0, n)`, every call returns, and the values returned
are, call by call, those of the same sequence on the abstract key-to-value map
started without bindings; that map mentions neither `n` nor `hash`, so the results
do not depend on them. -/
theorem table_refines_finite_map (hashFunction : Nat → Nat) (n : Nat) (calls : List Call)
    (hn : 1 ≤ n) (hh : ∀ x, hashFunction x < n) :
    ∃ w, (fresh hashFunction n).bind (fun w0 => runCalls w0 calls)
      = some ((absRun absEmpty calls).1, w) := by
  obtain ⟨w, hrun, _⟩ := Sim_run (Sim_fresh hn hh) calls
  exact ⟨w, by rw [fresh_eq hn, Option.some_bind]; exact hrun⟩

theorem table_refines_finite_map_witness :
    1 ≤ 3 ∧ (∀ x, testHash x < 3)
      ∧ (absRun absEmpty [Call.insertItem 13 10, Call.insertItem 72 20, Call.insertItem 39 30,
            Call.insertItem 39 31, Call.getItem 1129, Call.getItem 13, Call.removeItem 3,
            Call.removeItem 13, Call.removeItem 13, Call.deleteItem 72, Call.getItem 72,
            Call.getItem 39]).1
          = [some 0, some 0, some 0, some 30, some 0, some 10, some 0, some 10, some 0, none,
              some 0, some 31]
      ∧ ∃ w, (fresh testHash 3).bind (fun w0 => runCalls w0
            [Call.insertItem 13 10, Call.insertItem 72 20, Call.insertItem 39 30,
              Call.insertItem 39 31, Call.getItem 1129, Call.getItem 13, Call.removeItem 3,
              Call.removeItem 13, Call.removeItem 13, Call.deleteItem 72, Call.getItem 72,
              Call.getItem 39])
          = some ((absRun absEmpty [Call.insertItem 13 10, Call.insertItem 72 20,
              Call.insertItem 39 30, Call.insertItem 39 31, Call.getItem 1129, Call.getItem 13,
              Call.removeItem 3, Call.removeItem 13, Call.removeItem 13, Call.deleteItem 72,
              Call.getItem 72, Call.getItem 39]).1, w) :=
  ⟨by decide, testHash_lt, by decide,
    table_refines_finite_map testHash 3
      [Call.insertItem 13 10, Call.insertItem 72 20, Call.insertItem 39 30,
        Call.insertItem 39 31, Call.getItem 1129, Call.getItem 13, Call.removeItem 3,
        Call.removeItem 13, Call.removeItem 13, Call.deleteItem 72, Call.getItem 72,
        Call.getItem 39] (by decide) testHash_lt⟩

end HashTableC
